import Mathlib

/-!
Verification of the canonicalization core of the drudge repository
(drudge/canon.py) against its specification.

The module canonicalizes tensorial factors: it builds an edge-labelled,
node-coloured dag (Eldag) from the summations and factors, hands it to an
external graph canonicalizer, and assembles the canonical summation order,
rewritten factors and accumulated coefficient from the result.

External collaborators are modelled as parameters or small shallow models:
the graph canonicalizer (canonpy.canon_eldag) is a function parameter, the
canonpy Perm and Group objects are plain structures holding the data the
core passes around, and the symbolic expression layer (sympy) is a small
inductive expression type with symbols, sums and products.
-/

namespace Drudge

/-- Identity action flag (source constant IDENT). -/
def IDENT : Nat := 0

/-- Negation action flag (source constant NEG). -/
def NEG : Nat := 1

/-- Conjugation action flag (source constant CONJ). -/
def CONJ : Nat := 2

/-- Symbols of the expression collaborator: ordinary symbols, and the
internal dummy placeholder symbols that the index normalizer substitutes
for dummies (distinct from all ordinary symbols by construction). -/
inductive Sym : Type where
  | var : Nat → Sym
  | ph : Nat → Sym
deriving DecidableEq

/-- Shallow model of the scalar expressions that appear in index slots. -/
inductive SExpr : Type where
  | sym : Sym → SExpr
  | add : SExpr → SExpr → SExpr
  | mul : SExpr → SExpr → SExpr
deriving DecidableEq

/-- Association-list lookup, the model of dictionary indexing for
dictionaries whose keys are distinct. -/
def alookup {α β : Type} [DecidableEq α] : List (α × β) → α → Option β
  | [], _ => none
  | (k, v) :: rest, q => if q = k then some v else alookup rest q

/-- The symbols occurring in an expression, deduplicated: model of the set
returned by expr.atoms(Symbol). -/
def SExpr.atoms : SExpr → List Sym
  | .sym s => [s]
  | .add a b => (a.atoms ++ b.atoms).dedup
  | .mul a b => (a.atoms ++ b.atoms).dedup

/-- Simultaneous symbol-for-symbol substitution: model of expr.xreplace. -/
def SExpr.xreplace (substs : List (Sym × Sym)) : SExpr → SExpr
  | .sym s => .sym ((alookup substs s).getD s)
  | .add a b => .add (a.xreplace substs) (b.xreplace substs)
  | .mul a b => .mul (a.xreplace substs) (b.xreplace substs)

/-- An injective code for symbols, used by the modelled expression key. -/
def Sym.code : Sym → Nat
  | .var n => Nat.pair 0 n
  | .ph n => Nat.pair 1 n

/-- Modelled from the spec: the externally supplied total ordering key over
symbolic expressions (utils.sympy_key, whose source is not part of this
repository snapshot). The spec only requires a total order; here it is an
injective encoding into the naturals. The theorems below are stated for an
arbitrary key function wherever possible, and this concrete key is used for
witnesses. -/
def sympy_key : SExpr → Nat
  | .sym s => Nat.pair 0 s.code
  | .add a b => Nat.pair 1 (Nat.pair (sympy_key a) (sympy_key b))
  | .mul a b => Nat.pair 2 (Nat.pair (sympy_key a) (sympy_key b))

/-- Model of canonpy.Perm: the image list on edge positions together with
the accumulated action bits. -/
structure Perm : Type where
  images : List Nat
  acc : Nat
deriving DecidableEq

/-- Constructing a Perm from a bare sequence gives the identity action. -/
def Perm.ofList (l : List Nat) : Perm := ⟨l, IDENT⟩

/-- Model of canonpy.Group: the generating set handed to the canonicalizer. -/
structure Group : Type where
  gens : List Perm
deriving DecidableEq

/-- Node colours: the tag (_SUM, _EXPR or _FACTOR) together with the second
component of the colour tuple (a range sort key, an expression key, or the
input colour of a factor, all totally ordered values modelled as naturals). -/
inductive Colour : Type where
  | sum : Nat → Colour
  | expr : Nat → Colour
  | factor : Nat → Colour
deriving DecidableEq

/-- The tag of a colour: 0 for _SUM, 1 for _EXPR, 2 for _FACTOR. -/
def Colour.tag : Colour → Nat
  | .sum _ => 0
  | .expr _ => 1
  | .factor _ => 2

/-- The second component of a colour tuple. -/
def Colour.snd : Colour → Nat
  | .sum k => k
  | .expr k => k
  | .factor k => k

/-- Encoding of colours as lexicographic pairs, giving the tuple comparison
of the source where the tag dominates. -/
def Colour.enc (c : Colour) : Lex (Nat × Nat) := toLex (c.tag, c.snd)

theorem Colour.enc_injective : Function.Injective Colour.enc := by
  intro a b h
  cases a <;> cases b <;>
    simp only [Colour.enc, Colour.tag, Colour.snd, toLex_inj, Prod.mk.injEq] at h <;>
    simp_all

instance : LinearOrder Colour := LinearOrder.lift' Colour.enc Colour.enc_injective

/-- The lexicographic comparison on (colour key, node index) pairs used by
the sorted(...) call in Eldag.int_colour. -/
def pairLe {K : Type} [LinearOrder K] (a b : K × Nat) : Prop :=
  a.1 < b.1 ∨ (a.1 = b.1 ∧ a.2 ≤ b.2)

instance {K : Type} [LinearOrder K] : DecidableRel (@pairLe K _) :=
  fun a b => inferInstanceAs (Decidable (a.1 < b.1 ∨ (a.1 = b.1 ∧ a.2 ≤ b.2)))

instance {K : Type} [LinearOrder K] : IsTotal (K × Nat) pairLe := by
  constructor
  intro a b
  rcases lt_trichotomy a.1 b.1 with h | h | h
  · exact Or.inl (Or.inl h)
  · rcases Nat.le_total a.2 b.2 with h2 | h2
    · exact Or.inl (Or.inr ⟨h, h2⟩)
    · exact Or.inr (Or.inr ⟨h.symm, h2⟩)
  · exact Or.inr (Or.inl h)

instance {K : Type} [LinearOrder K] : IsTrans (K × Nat) pairLe := by
  constructor
  intro a b c hab hbc
  rcases hab with h1 | ⟨h1, h1n⟩
  · rcases hbc with h2 | ⟨h2, _⟩
    · exact Or.inl (h1.trans h2)
    · exact Or.inl (h2 ▸ h1)
  · rcases hbc with h2 | ⟨h2, h2n⟩
    · exact Or.inl (h1 ▸ h2)
    · exact Or.inr ⟨h1.trans h2, h1n.trans h2n⟩

/-- The group-ordinal scan over the tail of the sorted pair list: the model
of enumerate(itertools.groupby(...)) flattened to one ordinal per element.
The ordinal stays when the key repeats and increments when it changes.
Result pairs are (original node index, group ordinal). -/
def groupScanAux {K : Type} [DecidableEq K] (prev : K) (g : Nat) :
    List (K × Nat) → List (Nat × Nat)
  | [] => []
  | (k, i) :: rest =>
      if k = prev then (i, g) :: groupScanAux k g rest
      else (i, g + 1) :: groupScanAux k (g + 1) rest

/-- The group-ordinal assignment for the whole sorted pair list. -/
def groupScan {K : Type} [DecidableEq K] : List (K × Nat) → List (Nat × Nat)
  | [] => []
  | (k, i) :: rest => (i, 0) :: groupScanAux k 0 rest

/-- Model of Eldag.int_colour: pair every colour key with its node index,
sort the pairs, group equal keys, and hand every member of the n-th group
the integer n, scattered back to node-index order. -/
def int_colour {K : Type} [LinearOrder K] (cs : List K) : List Nat :=
  let pairs := List.insertionSort pairLe (cs.enum.map (fun p => (p.2, p.1)))
  let asg := groupScan pairs
  (List.range cs.length).map (fun i => (alookup asg i).getD 0)

/-- A shallow container for the Eldag, built one node after another. -/
structure Eldag : Type where
  edges : List Nat
  ia : List Nat
  symms : List (Option Group)
  colours : List Colour
deriving DecidableEq

/-- The freshly initialized Eldag: no edges, the single sentinel offset 0. -/
def Eldag.empty : Eldag := ⟨[], [0], [], []⟩

/-- Model of Eldag.add_node: append the edges, close the offset array with
the new total edge count, and append symmetry and colour; the index of the
new node is returned with the new state. -/
def Eldag.add_node (e : Eldag) (es : List Nat) (symm : Option Group)
    (colour : Colour) : Nat × Eldag :=
  let edges := e.edges ++ es
  (e.symms.length, ⟨edges, e.ia ++ [edges.length], e.symms ++ [symm], e.colours ++ [colour]⟩)

/-- Model of Eldag.canon: hand the flattened arrays and the integral colours
to the external canonicalizer (canonpy.canon_eldag, out of scope), which is
a parameter of the model. -/
def Eldag.canon (e : Eldag)
    (canon_eldag : List Nat → List Nat → List (Option Group) → List Nat →
      List Nat × List (Option Perm)) :
    List Nat × List (Option Perm) :=
  canon_eldag e.edges e.ia e.symms (int_colour e.colours)

/-- A factor: a base identity plus an ordered index sequence, the capability
surface the driver requires from SymPy Indexed quantities. -/
structure Factor : Type where
  base : Nat
  indices : List SExpr
deriving DecidableEq

/-- Values a canonicalized factor can take: an indexed quantity rebuilt from
a base and an index sequence, possibly wrapped in a complex conjugation. -/
inductive FVal : Type where
  | ind : Nat → List SExpr → FVal
  | conj : FVal → FVal
deriving DecidableEq

/-- The value of an untouched factor. -/
def Factor.val (f : Factor) : FVal := .ind f.base f.indices

/-- Keys of the symmetry table: the bare factor base, or the (base, arity)
pair; the table of the source is one dictionary holding both key shapes. -/
inductive SymKey : Type where
  | base : Nat → SymKey
  | baseArity : Nat → Nat → SymKey
deriving DecidableEq

/-- The symmetry mapping passed to canon_factors. -/
abbrev SymmTable := List (SymKey × Group)

/-- Dictionary lookup where later insertions win, the model of a python dict
built by a comprehension. -/
def dictGet {α β : Type} [DecidableEq α] : List (α × β) → α → Option β
  | [], _ => none
  | (k, v) :: rest, q =>
      match dictGet rest q with
      | some r => some r
      | none => if q = k then some v else none

/-- Model of canon._find_perm: build the value-to-position dictionary of the
original sequence and read the position of every target element off it. -/
def find_perm (orig dest : List Nat) : Perm :=
  let idxes := orig.enum.map (fun p => (p.2, p.1))
  Perm.ofList (dest.map (fun v => (dictGet idxes v).getD 0))

/-- Model of canon._placeholders: the placeholder symbol for position n. -/
def placeholders (n : Nat) : Sym := Sym.ph n

/-- The involved mapping of _proc_indices: summation node index to the dummy
symbol of that summation, for every dummy occurring in the expression. -/
def involvedList (dumms : List (Sym × Nat)) (e : SExpr) : List (Nat × Sym) :=
  e.atoms.filterMap (fun s => (alookup dumms s).map (fun i => (i, s)))

/-- The summation nodes involved in one index expression. -/
def sumNodesOf (dumms : List (Sym × Nat)) (e : SExpr) : List Nat :=
  (involvedList dumms e).map Prod.fst

/-- The substitution of one candidate ordering: the dummy of the summation
node at position i of the ordering goes to the placeholder of i. -/
def substsFor (involved : List (Nat × Sym)) (edges : List Nat) : List (Sym × Sym) :=
  edges.enum.map (fun p => ((alookup involved p.2).getD (Sym.var 0), placeholders p.1))

/-- The substituted form of the expression for one candidate ordering. -/
def formOf (involved : List (Nat × Sym)) (e : SExpr) (edges : List Nat) : SExpr :=
  e.xreplace (substsFor involved edges)

/-- The running state of the minimal-form search in _proc_indices. The
order and edges fields are meaningful only once curr_form is set, matching
the None initialization of the source. -/
structure PIState : Type where
  curr_form : Option SExpr
  curr_order : Nat
  curr_edges : List Nat
  curr_symms : List Perm
deriving DecidableEq

/-- One trial of the loop over itertools.permutations in _proc_indices:
strictly smaller keys take over and reset the symmetry list, identical
forms contribute a permutation to the symmetry list. -/
def piStep (key : SExpr → Nat) (involved : List (Nat × Sym)) (e : SExpr)
    (st : PIState) (edges : List Nat) : PIState :=
  let form := formOf involved e edges
  let order := key form
  match st.curr_form with
  | none => ⟨some form, order, edges, []⟩
  | some cf =>
      if order < st.curr_order then ⟨some form, order, edges, []⟩
      else if form = cf then
        { st with curr_symms := st.curr_symms ++ [find_perm st.curr_edges edges] }
      else st

/-- Processing of one index expression inside _proc_indices: collect the
involved dummies, try every ordering for the minimal substituted form, and
append one EXPR node. When more than two dummies are involved the source
calls warnings.warn with the expression in the category argument, which
raises TypeError; that abort is modelled as an error result. -/
def procOneIndex (key : SExpr → Nat) (dumms : List (Sym × Nat)) (eldag : Eldag)
    (e : SExpr) : Except String (Nat × Eldag) :=
  if 2 < (sumNodesOf dumms e).length then
    .error "TypeError: category must be a Warning subclass"
  else
    let st := ((sumNodesOf dumms e).permutations).foldl
      (piStep key (involvedList dumms e) e) ⟨none, 0, [], []⟩
    .ok (eldag.add_node st.curr_edges
      (if st.curr_symms.length > 0 then some ⟨st.curr_symms⟩ else none)
      (Colour.expr st.curr_order))

/-- Model of _proc_indices: process the index expressions one after another,
collecting the new EXPR node indices. -/
def proc_indices (key : SExpr → Nat) (dumms : List (Sym × Nat)) :
    Eldag → List SExpr → Except String (List Nat × Eldag)
  | eldag, [] => .ok ([], eldag)
  | eldag, e :: rest =>
      match procOneIndex key dumms eldag e with
      | .error m => .error m
      | .ok (idx, e1) =>
          match proc_indices key dumms e1 rest with
          | .error m => .error m
          | .ok (idxs, e2) => .ok (idx :: idxs, e2)

/-- The symmetry lookup of _build_eldag for one factor: the exact
(base, arity) key first, then the bare base, then none; a factor with fewer
than two indices always gets none. -/
def factorSymmsOf (symms : SymmTable) (f : Factor) : Option Group :=
  if f.indices.length < 2 then none
  else
    match alookup symms (SymKey.baseArity f.base f.indices.length) with
    | some g => some g
    | none =>
        match alookup symms (SymKey.base f.base) with
        | some g => some g
        | none => none

/-- The factor loop of _build_eldag: per factor, the index nodes are built
first and then the FACTOR node pointing at them, carrying the looked-up
symmetry and the (FACTOR, colour) colour. -/
def buildFactors (key : SExpr → Nat) (dumms : List (Sym × Nat)) (symms : SymmTable) :
    Eldag → List (Factor × Nat) → Except String (Eldag × List Nat)
  | eldag, [] => .ok (eldag, [])
  | eldag, (f, colour) :: rest =>
      let factor_symms := factorSymmsOf symms f
      match proc_indices key dumms eldag f.indices with
      | .error m => .error m
      | .ok (index_nodes, e1) =>
          let r := e1.add_node index_nodes factor_symms (Colour.factor colour)
          match buildFactors key dumms symms r.2 rest with
          | .error m => .error m
          | .ok (e3, idxs) => .ok (e3, r.1 :: idxs)

/-- Model of _build_eldag: one SUM node per summation first (no edges, no
symmetry, colour (_SUM, range sort key)), then the factors over the
dummy-to-node mapping. -/
def build_eldag (key : SExpr → Nat) (sums : List (Sym × Nat))
    (factors : List (Factor × Nat)) (symms : SymmTable) :
    Except String (Eldag × List Nat) :=
  let eldag := sums.foldl (fun e s => (e.add_node [] none (Colour.sum s.2)).2) Eldag.empty
  let dumms := sums.enum.map (fun p => (p.2.1, p.1))
  buildFactors key dumms symms eldag factors

/-- The body of the result-assembly loop of canon_factors for one factor:
the resulting factor value together with the sign it contributes to the
coefficient. -/
def processOneFactor (perm : Option Perm) (f : Factor) : FVal × Int :=
  let indices := f.indices
  let valency := indices.length
  if valency < 2 then (f.val, 1)
  else
    match perm with
    | none => (f.val, 1)
    | some p =>
        let factor_res : FVal :=
          .ind f.base ((List.range valency).map
            (fun i => indices.getD (p.images.getD i 0) (SExpr.sym (Sym.var 0))))
        let sign : Int := if p.acc &&& NEG ≠ 0 then -1 else 1
        let factor_res := if p.acc &&& CONJ ≠ 0 then FVal.conj factor_res else factor_res
        (factor_res, sign)

/-- The result-assembly loop of canon_factors over the factors zipped with
their node indices, accumulating the running coefficient. -/
def factorLoop (perms : List (Option Perm)) :
    List ((Factor × Nat) × Nat) → Int → List FVal × Int
  | [], coeff => ([], coeff)
  | (fc, nodeIdx) :: rest, coeff =>
      let pr := processOneFactor (perms.getD nodeIdx none) fc.1
      let r := factorLoop perms rest (coeff * pr.2)
      (pr.1 :: r.1, r.2)

/-- Model of canon_factors, the driver: short-circuit the empty input, build
the Eldag, canonicalize through the external engine, then emit the
summations of SUM-tagged nodes in canonical node order, rewrite the factors
and accumulate the coefficient. -/
def canon_factors (key : SExpr → Nat)
    (canon_eldag : List Nat → List Nat → List (Option Group) → List Nat →
      List Nat × List (Option Perm))
    (sums : List (Sym × Nat)) (factors : List (Factor × Nat)) (symms : SymmTable) :
    Except String (List (Sym × Nat) × List FVal × Int) :=
  if factors.length = 0 ∧ sums.length = 0 then .ok (sums, [], 1)
  else
    match build_eldag key sums factors symms with
    | .error m => .error m
    | .ok (eldag, factor_idxes) =>
        let nop := eldag.canon canon_eldag
        let node_order := nop.1
        let perms := nop.2
        let sums_res := (node_order.filter
          (fun i => (eldag.colours.getD i (Colour.factor 0)).tag == 0)).map
          (fun i => sums.getD i (Sym.var 0, 0))
        let fr := factorLoop perms (factors.zip factor_idxes) 1
        .ok (sums_res, fr.1, fr.2)

/-- The canonical factor order that the specification prescribes, written
from the words of the spec for comparison with the source behaviour: walk
the canonical node order, keep the FACTOR-tagged nodes, and emit for each
the rewritten value of the factor whose node it is. -/
def specFactorOrder (eldag : Eldag) (node_order : List Nat) (factor_idxes : List Nat)
    (factors_res : List FVal) : List FVal :=
  (node_order.filter (fun i => (eldag.colours.getD i (Colour.sum 0)).tag == 2)).map
    (fun i => factors_res.getD (factor_idxes.indexOf i) (FVal.ind 0 []))

/-- The payload of a successful result, with a default for the error case. -/
def okD {α : Type} (x : Except String α) (d : α) : α :=
  match x with
  | .ok a => a
  | .error _ => d

/-- One recorded add_node call. -/
structure EldagCall : Type where
  edges : List Nat
  symm : Option Group
  colour : Colour
deriving DecidableEq

/-- Replay a sequence of add_node calls from a given state, collecting the
returned node indices. -/
def applyCallsR (e : Eldag) (calls : List EldagCall) : Eldag × List Nat :=
  calls.foldl
    (fun p c =>
      let r := p.1.add_node c.edges c.symm c.colour
      (r.2, p.2 ++ [r.1]))
    (e, [])

/-!
## Theorems
-/

/-- C1: the spec says that when one index sub-expression involves more than
two summed dummies, a non-fatal warning is emitted and the computation
proceeds to a normal result. In the source, the call
warnings.warn("Index expression", expr, "contains too many summed dummies,
something might be wrong") passes the expression object as the category
argument of warnings.warn, which raises TypeError and aborts the whole
call. Evaluating the model at a factor whose single index expression is
i + j + l with all three symbols summed shows canon_factors aborting with
the TypeError instead of returning a canonicalization result. -/
theorem canon_factors_aborts_on_three_dummies :
    canon_factors sympy_key (fun _ _ _ _ => ([], []))
      [(Sym.var 0, 0), (Sym.var 1, 0), (Sym.var 2, 0)]
      [(⟨0, [SExpr.add (SExpr.add (SExpr.sym (Sym.var 0)) (SExpr.sym (Sym.var 1)))
        (SExpr.sym (Sym.var 2))]⟩, 0)]
      []
      = Except.error "TypeError: category must be a Warning subclass" := by
  rfl

theorem dictGet_eq_none_of_not_mem {α β : Type} [DecidableEq α]
    (l : List (α × β)) (q : α) (h : ∀ p ∈ l, p.1 ≠ q) : dictGet l q = none := by
  induction l with
  | nil => rfl
  | cons p rest ih =>
      obtain ⟨k, v⟩ := p
      have hk : q ≠ k := fun hqk => (h (k, v) (List.mem_cons_self _ _)) hqk.symm
      have hrest : dictGet rest q = none :=
        ih (fun p hp => h p (List.mem_cons_of_mem _ hp))
      simp [dictGet, hrest, hk]

theorem dictGet_enumFrom_swap :
    ∀ (orig : List Nat), orig.Nodup → ∀ (n j : Nat) (hj : j < orig.length),
      dictGet ((orig.enumFrom n).map (fun p => (p.2, p.1))) (orig.get ⟨j, hj⟩)
        = some (n + j) := by
  intro orig
  induction orig with
  | nil => intro _ n j hj; exact absurd hj (by simp)
  | cons a rest ih =>
      intro hnd n j hj
      obtain ⟨ha, hrest⟩ := List.nodup_cons.mp hnd
      cases j with
      | zero =>
          have hnone :
              dictGet ((rest.enumFrom (n + 1)).map (fun p => (p.2, p.1))) a = none := by
            apply dictGet_eq_none_of_not_mem
            intro p hp
            obtain ⟨q, hq, rfl⟩ := List.mem_map.mp hp
            have : q.2 ∈ rest := by
              have := List.mem_map_of_mem Prod.snd hq
              rwa [List.enumFrom_map_snd] at this
            exact fun hcontra => ha (hcontra ▸ this)
          simp [List.enumFrom_cons, dictGet, hnone]
      | succ j =>
          have hj2 : j < rest.length := Nat.lt_of_succ_lt_succ hj
          have := ih hrest (n + 1) j hj2
          simp only [List.enumFrom_cons, List.map_cons, dictGet, this,
            List.get_cons_succ]
          congr 1
          omega

/-- C8: for two equal-length sequences that are permutations of the same
distinct values, find_perm(orig, dest) returns the permutation p such that
for each position i, orig[p[i]] = dest[i]. -/
theorem find_perm_spec (orig dest : List Nat) (hnd : orig.Nodup)
    (hp : dest.Perm orig) (i : Nat) (hi : i < dest.length) :
    orig.getD ((find_perm orig dest).images.getD i 0) 0 = dest.getD i 0 := by
  have hv : dest.getD i 0 ∈ orig := by
    apply hp.subset
    rw [List.getD_eq_get dest 0 hi]
    exact dest.get_mem _ _
  obtain ⟨⟨j, hj⟩, hget⟩ := List.mem_iff_get.mp hv
  have himg : (find_perm orig dest).images.getD i 0 = j := by
    have hlen : i < (dest.map
        (fun v => (dictGet (orig.enum.map (fun p => (p.2, p.1))) v).getD 0)).length := by
      simpa using hi
    simp only [find_perm, Perm.ofList]
    rw [List.getD_eq_getElem _ _ hlen, List.getElem_map]
    have hd : dest[i] = dest.getD i 0 := (List.getD_eq_getElem _ _ hi).symm
    rw [hd, ← hget]
    have hdg : dictGet (orig.enum.map (fun p => (p.2, p.1))) (orig.get ⟨j, hj⟩)
        = some j := by
      simpa [List.enum] using dictGet_enumFrom_swap orig hnd 0 j hj
    rw [hdg]
    rfl
  rw [himg, List.getD_eq_get orig 0 hj, hget]

/-- Witness for find_perm_spec at orig = [2, 0, 1], dest = [1, 2, 0], i = 1. -/
theorem find_perm_spec_witness :
    [2, 0, 1].getD ((find_perm [2, 0, 1] [1, 2, 0]).images.getD 1 0) 0
      = [1, 2, 0].getD 1 0 :=
  find_perm_spec [2, 0, 1] [1, 2, 0] (by decide) (by decide) 1 (by decide)

theorem applyCallsR_append (e : Eldag) (calls : List EldagCall) (c : EldagCall) :
    applyCallsR e (calls ++ [c]) =
      (((applyCallsR e calls).1.add_node c.edges c.symm c.colour).2,
        (applyCallsR e calls).2 ++
          [((applyCallsR e calls).1.add_node c.edges c.symm c.colour).1]) := by
  unfold applyCallsR
  rw [List.foldl_append]
  rfl

/-- The default call used for out-of-range getD reads in statements. -/
def dfltCall : EldagCall := ⟨[], none, Colour.sum 0⟩

/-- All container invariants of a replayed add_node call sequence, proved in
one induction over the call list from the right. -/
theorem applyCallsR_invariants (calls : List EldagCall) :
    (applyCallsR Eldag.empty calls).1.ia.length = calls.length + 1 ∧
    (applyCallsR Eldag.empty calls).1.symms = calls.map EldagCall.symm ∧
    (applyCallsR Eldag.empty calls).1.colours = calls.map EldagCall.colour ∧
    (applyCallsR Eldag.empty calls).2 = List.range calls.length ∧
    (applyCallsR Eldag.empty calls).1.ia.getD 0 0 = 0 ∧
    (applyCallsR Eldag.empty calls).1.ia.getLast? =
      some (applyCallsR Eldag.empty calls).1.edges.length ∧
    List.Chain' (fun a b => a ≤ b) (applyCallsR Eldag.empty calls).1.ia ∧
    (∀ j, j < (applyCallsR Eldag.empty calls).1.ia.length →
      (applyCallsR Eldag.empty calls).1.ia.getD j 0 ≤
        (applyCallsR Eldag.empty calls).1.edges.length) ∧
    (∀ i, i < calls.length →
      ((applyCallsR Eldag.empty calls).1.edges.drop
          ((applyCallsR Eldag.empty calls).1.ia.getD i 0)).take
          ((applyCallsR Eldag.empty calls).1.ia.getD (i + 1) 0 -
            (applyCallsR Eldag.empty calls).1.ia.getD i 0)
        = (calls.getD i dfltCall).edges) := by
  induction calls using List.reverseRecOn with
  | nil =>
      refine ⟨rfl, rfl, rfl, rfl, rfl, rfl, ?_, ?_, ?_⟩
      · simp [applyCallsR, Eldag.empty]
      · intro j hj
        have hj0 : j = 0 := by
          simp only [applyCallsR, List.foldl_nil, Eldag.empty, List.length_singleton] at hj
          omega
        subst hj0
        simp [applyCallsR, Eldag.empty]
      · intro i hi
        exact absurd hi (by simp [applyCallsR])
  | append_singleton cs c ih =>
      obtain ⟨ih1, ih2, ih3, ih4, ih5, ih6, ih7, ih8, ih9⟩ := ih
      have hstep := applyCallsR_append Eldag.empty cs c
      set E := (applyCallsR Eldag.empty cs).1 with hE
      have hlen : E.symms.length = cs.length := by rw [ih2]; simp
      have hia1 : (applyCallsR Eldag.empty (cs ++ [c])).1.ia
          = E.ia ++ [(E.edges ++ c.edges).length] := by
        rw [hstep]; rfl
      have hedges1 : (applyCallsR Eldag.empty (cs ++ [c])).1.edges
          = E.edges ++ c.edges := by
        rw [hstep]; rfl
      have hsymms1 : (applyCallsR Eldag.empty (cs ++ [c])).1.symms
          = E.symms ++ [c.symm] := by
        rw [hstep]; rfl
      have hcols1 : (applyCallsR Eldag.empty (cs ++ [c])).1.colours
          = E.colours ++ [c.colour] := by
        rw [hstep]; rfl
      have hrets1 : (applyCallsR Eldag.empty (cs ++ [c])).2
          = (applyCallsR Eldag.empty cs).2 ++ [E.symms.length] := by
        rw [hstep]; rfl
      have hiaN : E.ia.getD cs.length 0 = E.edges.length := by
        have h1 : E.ia.getLast? = E.ia[E.ia.length - 1]? := List.getLast?_eq_getElem? _
        rw [ih6, ih1] at h1
        simp only [Nat.add_sub_cancel] at h1
        rw [List.getD_eq_getD_get?, List.get?_eq_getElem?, ← h1]
        rfl
      refine ⟨?_, ?_, ?_, ?_, ?_, ?_, ?_, ?_, ?_⟩
      · rw [hia1]; simp [ih1]
      · rw [hsymms1, ih2]; simp
      · rw [hcols1, ih3]; simp
      · rw [hrets1, ih4, hlen]; simp [List.range_succ]
      · rw [hia1, List.getD_append _ _ _ _ (by rw [ih1]; omega)]
        exact ih5
      · rw [hia1, hedges1, List.getLast?_concat]
      · rw [hia1]
        rw [List.chain'_append]
        refine ⟨ih7, List.chain'_singleton _, ?_⟩
        intro x hx y hy
        rw [ih6] at hx
        simp only [Option.mem_def, Option.some.injEq] at hx
        simp only [List.head?_cons, Option.mem_def, Option.some.injEq] at hy
        subst hx; subst hy
        simp
      · intro j hj
        rw [hia1] at hj
        simp only [List.length_append, List.length_singleton, ih1] at hj
        rw [hia1, hedges1]
        rcases Nat.lt_or_ge j (cs.length + 1) with hlt | hge
        · rw [List.getD_append _ _ _ _ (by rw [ih1]; omega)]
          calc E.ia.getD j 0 ≤ E.edges.length := ih8 j (by rw [ih1]; omega)
            _ ≤ (E.edges ++ c.edges).length := by simp
        · have hj2 : j = cs.length + 1 := by omega
          subst hj2
          rw [List.getD_append_right _ _ _ _ (le_of_eq ih1)]
          simp [ih1]
      · intro i hi
        simp only [List.length_append, List.length_singleton] at hi
        rw [hia1, hedges1]
        rcases Nat.lt_or_ge i cs.length with hlt | hge
        · have hb1 : i < E.ia.length := by rw [ih1]; omega
          have hb2 : i + 1 < E.ia.length := by rw [ih1]; omega
          rw [List.getD_append _ _ _ _ hb1, List.getD_append _ _ _ _ hb2]
          have ha : E.ia.getD i 0 ≤ E.edges.length := ih8 i hb1
          have hbb : E.ia.getD (i + 1) 0 ≤ E.edges.length := ih8 (i + 1) hb2
          rw [List.drop_append_of_le_length ha]
          rw [List.take_append_of_le_length (by
            rw [List.length_drop]; omega)]
          rw [List.getD_append _ _ _ _ hlt]
          exact ih9 i hlt
        · have : i = cs.length := by omega
          subst this
          have hb1 : cs.length < E.ia.length := by rw [ih1]; omega
          rw [List.getD_append _ _ _ _ hb1,
            List.getD_append_right _ _ _ _ (le_of_eq ih1)]
          rw [hiaN]
          have hidx : cs.length + 1 - E.ia.length = 0 := by rw [ih1]; omega
          rw [hidx, List.drop_left]
          have hsub : (E.edges ++ c.edges).length - E.edges.length = c.edges.length := by
            simp
          simp only [List.getD_cons_zero, hsub, List.take_length]
          rw [List.getD_append_right _ _ _ _ (Nat.le_refl _)]
          simp

/-- C9: after any sequence of add_node calls on an Eldag, the offset array
ia has length node_count + 1 with ia[0] = 0 and nondecreasing entries, node
i owns exactly the edge slice edges[ia[i] : ia[i+1]] in insertion order,
add_node returns the consecutive indices 0, 1, 2, ... in creation order,
and the symmetry and colour of every node equal those given at its own
insertion, untouched by later additions. -/
theorem eldag_add_node_invariants (calls : List EldagCall) :
    (applyCallsR Eldag.empty calls).1.ia.length = calls.length + 1 ∧
    (applyCallsR Eldag.empty calls).1.ia.getD 0 0 = 0 ∧
    List.Chain' (fun a b => a ≤ b) (applyCallsR Eldag.empty calls).1.ia ∧
    (applyCallsR Eldag.empty calls).2 = List.range calls.length ∧
    (applyCallsR Eldag.empty calls).1.symms = calls.map EldagCall.symm ∧
    (applyCallsR Eldag.empty calls).1.colours = calls.map EldagCall.colour ∧
    (∀ i, i < calls.length →
      ((applyCallsR Eldag.empty calls).1.edges.drop
          ((applyCallsR Eldag.empty calls).1.ia.getD i 0)).take
          ((applyCallsR Eldag.empty calls).1.ia.getD (i + 1) 0 -
            (applyCallsR Eldag.empty calls).1.ia.getD i 0)
        = (calls.getD i dfltCall).edges) := by
  obtain ⟨h1, h2, h3, h4, h5, h6, h7, h8, h9⟩ := applyCallsR_invariants calls
  exact ⟨h1, h5, h7, h4, h2, h3, h9⟩

/-- The demonstration call sequence for the add_node invariants. -/
def demoCalls : List EldagCall :=
  [⟨[], none, Colour.sum 0⟩, ⟨[0], none, Colour.expr 3⟩, ⟨[1, 0], none, Colour.factor 2⟩]

/-- Witness: the add_node invariants evaluated on a concrete call sequence,
with the slice property read off at node 2. -/
theorem eldag_add_node_invariants_witness :
    ((applyCallsR Eldag.empty demoCalls).1.edges.drop
        ((applyCallsR Eldag.empty demoCalls).1.ia.getD 2 0)).take
        ((applyCallsR Eldag.empty demoCalls).1.ia.getD 3 0 -
          (applyCallsR Eldag.empty demoCalls).1.ia.getD 2 0)
      = (demoCalls.getD 2 dfltCall).edges :=
  (eldag_add_node_invariants demoCalls).2.2.2.2.2.2 2 (by decide)

/-!
### The colour assigner
-/

/-- The set of colour keys of a pair list. -/
def keysetOf {K : Type} [LinearOrder K] (l : List (K × Nat)) : Finset K :=
  (l.map Prod.fst).toFinset

theorem keysetOf_cons {K : Type} [LinearOrder K] (k0 : K) (i0 : Nat)
    (rest : List (K × Nat)) :
    keysetOf ((k0, i0) :: rest) = insert k0 (keysetOf rest) := by
  simp [keysetOf]

theorem mem_keysetOf {K : Type} [LinearOrder K] {l : List (K × Nat)} {x : K} :
    x ∈ keysetOf l ↔ ∃ p ∈ l, p.1 = x := by
  simp [keysetOf]

theorem groupScanAux_fst {K : Type} [DecidableEq K] :
    ∀ (l : List (K × Nat)) (prev : K) (g : Nat),
      (groupScanAux prev g l).map Prod.fst = l.map Prod.snd := by
  intro l
  induction l with
  | nil => intro prev g; rfl
  | cons hd rest ih =>
      intro prev g
      obtain ⟨k, i⟩ := hd
      by_cases h : k = prev <;> simp [groupScanAux, h, ih]

theorem groupScan_fst {K : Type} [DecidableEq K] (l : List (K × Nat)) :
    (groupScan l).map Prod.fst = l.map Prod.snd := by
  cases l with
  | nil => rfl
  | cons hd rest =>
      obtain ⟨k, i⟩ := hd
      simp [groupScan, groupScanAux_fst]

theorem alookup_eq_some_of_mem {α β : Type} [DecidableEq α] :
    ∀ (l : List (α × β)) (a : α) (b : β), (a, b) ∈ l → (l.map Prod.fst).Nodup →
      alookup l a = some b := by
  intro l
  induction l with
  | nil => intro a b hmem _; exact absurd hmem (by simp)
  | cons hd rest ih =>
      intro a b hmem hnd
      obtain ⟨k, v⟩ := hd
      have hnd2 : (k :: rest.map Prod.fst).Nodup := by simpa using hnd
      obtain ⟨hk, hrest⟩ := List.nodup_cons.mp hnd2
      rcases List.mem_cons.mp hmem with heq | hmem2
      · injection heq with h1 h2
        subst h1; subst h2
        simp [alookup]
      · have hne : a ≠ k := by
          intro hak
          subst hak
          exact hk (List.mem_map.mpr ⟨(a, b), hmem2, rfl⟩)
        simp [alookup, hne, ih a b hmem2 hrest]

theorem le_of_mem_keysetOf {K : Type} [LinearOrder K] {rest : List (K × Nat)} {k0 x : K}
    (hhead : ∀ p ∈ rest, k0 ≤ p.1) (hx : x ∈ keysetOf rest) : k0 ≤ x := by
  obtain ⟨p, hp, hpx⟩ := mem_keysetOf.mp hx
  exact hpx ▸ hhead p hp

theorem groupScanAux_assign {K : Type} [LinearOrder K] :
    ∀ (l : List (K × Nat)) (prev : K) (g : Nat),
      (∀ p ∈ l, prev ≤ p.1) →
      l.Pairwise (fun a b => a.1 ≤ b.1) →
      ∀ k i, (k, i) ∈ l →
        (i, g + ((keysetOf l).filter (fun x => x ≤ k ∧ x ≠ prev)).card)
          ∈ groupScanAux prev g l := by
  intro l
  induction l with
  | nil => intro prev g _ _ k i hmem; exact absurd hmem (by simp)
  | cons hd rest ih =>
      intro prev g hprev hsort k i hmem
      obtain ⟨k0, i0⟩ := hd
      obtain ⟨hhead, hrest⟩ := List.pairwise_cons.mp hsort
      have hhead2 : ∀ p ∈ rest, k0 ≤ p.1 := fun p hp => hhead p hp
      by_cases hkp : k0 = prev
      · subst hkp
        rcases List.mem_cons.mp hmem with heq | hmem2
        · injection heq with h1 h2
          subst h1; subst h2
          have hcard : ((keysetOf ((k, i) :: rest)).filter
              (fun x => x ≤ k ∧ x ≠ k)).card = 0 := by
            rw [Finset.card_eq_zero, Finset.filter_eq_empty_iff]
            intro x _
            intro hcon
            exact hcon.2 (le_antisymm hcon.1 (by
              rcases mem_keysetOf.mp (by assumption) with ⟨p, hp, hpx⟩
              rcases List.mem_cons.mp hp with hh | ht
              · rw [← hpx, hh]
              · exact hpx ▸ hhead2 p ht))
          rw [hcard]
          simp [groupScanAux]
        · have hih := ih k0 g hhead2 hrest k i hmem2
          have hcard : ((keysetOf ((k0, i0) :: rest)).filter
                (fun x => x ≤ k ∧ x ≠ k0)).card
              = ((keysetOf rest).filter (fun x => x ≤ k ∧ x ≠ k0)).card := by
            rw [keysetOf_cons, Finset.filter_insert]
            rw [if_neg (by simp)]
          rw [hcard]
          simp only [groupScanAux, if_pos rfl]
          exact List.mem_cons_of_mem _ hih
      · rcases List.mem_cons.mp hmem with heq | hmem2
        · injection heq with h1 h2
          subst h1; subst h2
          have hcard : ((keysetOf ((k, i) :: rest)).filter
              (fun x => x ≤ k ∧ x ≠ prev)).card = 1 := by
            have hset : (keysetOf ((k, i) :: rest)).filter
                (fun x => x ≤ k ∧ x ≠ prev) = {k} := by
              apply Finset.ext
              intro x
              simp only [Finset.mem_filter, Finset.mem_singleton]
              constructor
              · rintro ⟨hx, hxk, _⟩
                rw [keysetOf_cons, Finset.mem_insert] at hx
                rcases hx with h | h
                · exact h
                · exact le_antisymm hxk (le_of_mem_keysetOf hhead2 h)
              · rintro rfl
                exact ⟨by rw [keysetOf_cons]; exact Finset.mem_insert_self _ _,
                  le_refl _, hkp⟩
            rw [hset, Finset.card_singleton]
          rw [hcard]
          simp [groupScanAux, hkp]
        · have hih := ih k0 (g + 1) hhead2 hrest k i hmem2
          have hk0k : k0 ≤ k := hhead2 (k, i) hmem2
          have hprevk0 : prev < k0 :=
            lt_of_le_of_ne (hprev (k0, i0) (List.mem_cons_self _ _)) (Ne.symm hkp)
          have hset : (keysetOf ((k0, i0) :: rest)).filter
                (fun x => x ≤ k ∧ x ≠ prev)
              = insert k0 ((keysetOf rest).filter (fun x => x ≤ k ∧ x ≠ k0)) := by
            apply Finset.ext
            intro x
            simp only [Finset.mem_filter, Finset.mem_insert, keysetOf_cons]
            constructor
            · rintro ⟨hx, hxk, hxp⟩
              rcases hx with h | h
              · exact Or.inl h
              · by_cases hxk0 : x = k0
                · exact Or.inl hxk0
                · exact Or.inr ⟨h, hxk, hxk0⟩
            · rintro (rfl | ⟨hx, hxk, hxk0⟩)
              · exact ⟨Or.inl rfl, hk0k, hkp⟩
              · refine ⟨Or.inr hx, hxk, ?_⟩
                intro hcontra
                subst hcontra
                exact absurd (le_of_mem_keysetOf hhead2 hx)
                  (not_le_of_lt hprevk0)
          have hcard : ((keysetOf ((k0, i0) :: rest)).filter
                (fun x => x ≤ k ∧ x ≠ prev)).card
              = 1 + ((keysetOf rest).filter (fun x => x ≤ k ∧ x ≠ k0)).card := by
            rw [hset, Finset.card_insert_of_not_mem (by simp), Nat.add_comm]
          rw [hcard]
          have : g + (1 + ((keysetOf rest).filter (fun x => x ≤ k ∧ x ≠ k0)).card)
              = g + 1 + ((keysetOf rest).filter (fun x => x ≤ k ∧ x ≠ k0)).card := by
            omega
          rw [this]
          simp only [groupScanAux, if_neg hkp]
          exact List.mem_cons_of_mem _ hih

theorem groupScan_assign {K : Type} [LinearOrder K] (l : List (K × Nat))
    (hsort : l.Pairwise (fun a b => a.1 ≤ b.1)) (k : K) (i : Nat)
    (hmem : (k, i) ∈ l) :
    (i, ((keysetOf l).filter (fun x => x < k)).card) ∈ groupScan l := by
  cases l with
  | nil => exact absurd hmem (by simp)
  | cons hd rest =>
      obtain ⟨k0, i0⟩ := hd
      obtain ⟨hhead, hrest⟩ := List.pairwise_cons.mp hsort
      have hhead2 : ∀ p ∈ rest, k0 ≤ p.1 := fun p hp => hhead p hp
      rcases List.mem_cons.mp hmem with heq | hmem2
      · injection heq with h1 h2
        subst h1; subst h2
        have hcard : ((keysetOf ((k, i) :: rest)).filter (fun x => x < k)).card = 0 := by
          rw [Finset.card_eq_zero, Finset.filter_eq_empty_iff]
          intro x hx
          rw [keysetOf_cons, Finset.mem_insert] at hx
          rcases hx with h | h
          · simp [h]
          · exact not_lt_of_le (le_of_mem_keysetOf hhead2 h)
        rw [hcard]
        exact List.mem_cons_self _ _
      · have hk0k : k0 ≤ k := hhead2 (k, i) hmem2
        have hih := groupScanAux_assign rest k0 0 hhead2 hrest k i hmem2
        rcases eq_or_lt_of_le hk0k with heq | hlt
        · subst heq
          have hz1 : ((keysetOf rest).filter (fun x => x ≤ k0 ∧ x ≠ k0)).card = 0 := by
            rw [Finset.card_eq_zero, Finset.filter_eq_empty_iff]
            intro x hx hcon
            exact hcon.2 (le_antisymm hcon.1 (le_of_mem_keysetOf hhead2 hx))
          have hz2 : ((keysetOf ((k0, i0) :: rest)).filter (fun x => x < k0)).card = 0 := by
            rw [Finset.card_eq_zero, Finset.filter_eq_empty_iff]
            intro x hx
            rw [keysetOf_cons, Finset.mem_insert] at hx
            rcases hx with h | h
            · simp [h]
            · exact not_lt_of_le (le_of_mem_keysetOf hhead2 h)
          rw [hz2]
          rw [hz1] at hih
          simp only [groupScan]
          exact List.mem_cons_of_mem _ hih
        · have hkk0 : k ≠ k0 := fun h => absurd (h ▸ hlt) (lt_irrefl _)
          have hkmem : k ∈ keysetOf rest := mem_keysetOf.mpr ⟨(k, i), hmem2, rfl⟩
          have hset : (keysetOf ((k0, i0) :: rest)).filter (fun x => x < k)
              = insert k0 ((keysetOf rest).filter (fun x => x < k ∧ x ≠ k0)) := by
            apply Finset.ext
            intro x
            simp only [Finset.mem_filter, Finset.mem_insert, keysetOf_cons]
            constructor
            · rintro ⟨hx, hxk⟩
              rcases hx with h | h
              · exact Or.inl h
              · by_cases hxk0 : x = k0
                · exact Or.inl hxk0
                · exact Or.inr ⟨h, hxk, hxk0⟩
            · rintro (rfl | ⟨hx, hxk, _⟩)
              · exact ⟨Or.inl rfl, hlt⟩
              · exact ⟨Or.inr hx, hxk⟩
          have hset2 : (keysetOf rest).filter (fun x => x ≤ k ∧ x ≠ k0)
              = insert k ((keysetOf rest).filter (fun x => x < k ∧ x ≠ k0)) := by
            apply Finset.ext
            intro x
            simp only [Finset.mem_filter, Finset.mem_insert]
            constructor
            · rintro ⟨hx, hxk, hxk0⟩
              rcases eq_or_lt_of_le hxk with h | h
              · exact Or.inl h
              · exact Or.inr ⟨hx, h, hxk0⟩
            · rintro (rfl | ⟨hx, hxk, hxk0⟩)
              · exact ⟨hkmem, le_refl _, hkk0⟩
              · exact ⟨hx, le_of_lt hxk, hxk0⟩
          have hcard : ((keysetOf ((k0, i0) :: rest)).filter (fun x => x < k)).card
              = ((keysetOf rest).filter (fun x => x ≤ k ∧ x ≠ k0)).card := by
            rw [hset, hset2,
              Finset.card_insert_of_not_mem (by simp),
              Finset.card_insert_of_not_mem (by simp [lt_irrefl])]
          rw [hcard]
          have hih2 : (i, ((keysetOf rest).filter (fun x => x ≤ k ∧ x ≠ k0)).card)
              ∈ groupScanAux k0 0 rest := by simpa using hih
          simp only [groupScan]
          exact List.mem_cons_of_mem _ hih2

theorem mem_enumFrom_of_get {α : Type} :
    ∀ (cs : List α) (n j : Nat) (hj : j < cs.length),
      (n + j, cs.get ⟨j, hj⟩) ∈ cs.enumFrom n := by
  intro cs
  induction cs with
  | nil => intro n j hj; exact absurd hj (by simp)
  | cons a rest ih =>
      intro n j hj
      cases j with
      | zero => simp [List.enumFrom_cons]
      | succ j =>
          have hj2 : j < rest.length := Nat.lt_of_succ_lt_succ hj
          have := ih (n + 1) j hj2
          have harith : n + (j + 1) = n + 1 + j := by omega
          rw [List.enumFrom_cons, harith]
          exact List.mem_cons_of_mem _ (by simpa using this)

/-- The characterization of the integral colours: the integer a position
receives is the number of distinct keys strictly below its own key. -/
theorem int_colour_getD {K : Type} [LinearOrder K] (cs : List K) (i : Nat)
    (hi : i < cs.length) :
    (int_colour cs).getD i 0
      = (cs.toFinset.filter (fun x => x < cs.get ⟨i, hi⟩)).card := by
  set a := cs.get ⟨i, hi⟩ with ha
  have hmem0 : (i, a) ∈ cs.enum := by
    have := mem_enumFrom_of_get cs 0 i hi
    simpa [List.enum, ha] using this
  have hmem1 : (a, i) ∈ cs.enum.map (fun p => (p.2, p.1)) :=
    List.mem_map.mpr ⟨(i, a), hmem0, rfl⟩
  have hperm := List.perm_insertionSort (@pairLe K _) (cs.enum.map (fun p => (p.2, p.1)))
  set sp := List.insertionSort pairLe (cs.enum.map (fun p => (p.2, p.1))) with hsp
  have hmem2 : (a, i) ∈ sp := hperm.mem_iff.mpr hmem1
  have hsorted : sp.Pairwise (fun p q : K × Nat => p.1 ≤ q.1) := by
    have hs := List.sorted_insertionSort pairLe (cs.enum.map (fun p => (p.2, p.1)))
    exact List.Pairwise.imp
      (fun h => h.elim (fun hlt => le_of_lt hlt) (fun he => le_of_eq he.1)) hs
  have hass := groupScan_assign sp hsorted a i hmem2
  have hfsteq : List.Perm (sp.map Prod.fst) cs := by
    have h1 := hperm.map Prod.fst
    have h2 : (cs.enum.map (fun p => (p.2, p.1))).map Prod.fst = cs := by
      rw [List.map_map]
      exact List.enum_map_snd cs
    rwa [h2] at h1
  have hkeys : keysetOf sp = cs.toFinset := by
    unfold keysetOf
    exact List.toFinset_eq_of_perm _ _ hfsteq
  have hnodup : ((groupScan sp).map Prod.fst).Nodup := by
    rw [groupScan_fst]
    have h1 := hperm.map Prod.snd
    have h2 : (cs.enum.map (fun p => (p.2, p.1))).map Prod.snd = List.range cs.length := by
      rw [List.map_map]
      exact List.enum_map_fst cs
    rw [h2] at h1
    exact h1.nodup_iff.mpr (List.nodup_range _)
  have halook : alookup (groupScan sp) i
      = some ((keysetOf sp).filter (fun x => x < a)).card :=
    alookup_eq_some_of_mem _ _ _ hass hnodup
  have hunf : (int_colour cs).getD i 0 = (alookup (groupScan sp) i).getD 0 := by
    show ((List.range cs.length).map
        (fun q => (alookup (groupScan sp) q).getD 0)).getD i 0 = _
    rw [List.getD_eq_getElem _ _ (by simpa using hi), List.getElem_map,
      List.getElem_range]
  rw [hunf, halook, hkeys]
  rfl

theorem int_colour_length {K : Type} [LinearOrder K] (cs : List K) :
    (int_colour cs).length = cs.length := by
  show ((List.range cs.length).map _).length = _
  simp

theorem card_lt_card_of_key_lt {K : Type} [LinearOrder K] {cs : List K} {a b : K}
    (ha : a ∈ cs) (hab : a < b) :
    (cs.toFinset.filter (fun x => x < a)).card
      < (cs.toFinset.filter (fun x => x < b)).card := by
  apply Finset.card_lt_card
  have hsub : cs.toFinset.filter (fun x => x < a) ⊆ cs.toFinset.filter (fun x => x < b) :=
    Finset.monotone_filter_right _ (fun x hx => lt_trans hx hab)
  rw [Finset.ssubset_iff_of_subset hsub]
  exact ⟨a, Finset.mem_filter.mpr ⟨List.mem_toFinset.mpr ha, hab⟩,
    fun hcon => absurd (Finset.mem_filter.mp hcon).2 (lt_irrefl a)⟩

/-- C6: the colour assigner int_colour returns a same-length sequence of
integers such that two positions receive equal integers exactly when their
keys are equal, and the integers are assigned in ascending order of key:
position i receives a smaller integer than position j exactly when the key
at i is smaller than the key at j. -/
theorem int_colour_spec {K : Type} [LinearOrder K] (cs : List K) :
    (int_colour cs).length = cs.length ∧
    ∀ i j (hi : i < cs.length) (hj : j < cs.length),
      ((int_colour cs).getD i 0 = (int_colour cs).getD j 0 ↔
        cs.get ⟨i, hi⟩ = cs.get ⟨j, hj⟩) ∧
      ((int_colour cs).getD i 0 < (int_colour cs).getD j 0 ↔
        cs.get ⟨i, hi⟩ < cs.get ⟨j, hj⟩) := by
  refine ⟨int_colour_length cs, ?_⟩
  intro i j hi hj
  rw [int_colour_getD cs i hi, int_colour_getD cs j hj]
  have hmi : cs.get ⟨i, hi⟩ ∈ cs := cs.get_mem _ _
  have hmj : cs.get ⟨j, hj⟩ ∈ cs := cs.get_mem _ _
  rcases lt_trichotomy (cs.get ⟨i, hi⟩) (cs.get ⟨j, hj⟩) with hlt | heq | hgt
  · have hc := card_lt_card_of_key_lt hmi hlt
    constructor
    · constructor
      · intro h; rw [h] at hc; exact absurd hc (lt_irrefl _)
      · intro h; exact absurd h (ne_of_lt hlt)
    · constructor
      · intro _; exact hlt
      · intro _; exact hc
  · rw [heq]
    constructor
    · constructor
      · intro _; exact rfl
      · intro _; rfl
    · constructor
      · intro h; exact absurd h (lt_irrefl _)
      · intro h; exact absurd h (lt_irrefl _)
  · have hc := card_lt_card_of_key_lt hmj hgt
    constructor
    · constructor
      · intro h; rw [h] at hc; exact absurd hc (lt_irrefl _)
      · intro h; exact absurd h.symm (ne_of_lt hgt)
    · constructor
      · intro h; exact absurd (lt_trans h hc) (lt_irrefl _)
      · intro h; exact absurd (lt_trans h hgt) (lt_irrefl _)

/-- Witness: the colour assigner specification read off at the concrete key
sequence [5, 3, 5, 9] at positions 0 and 3. -/
theorem int_colour_spec_witness :
    ((int_colour [5, 3, 5, 9]).getD 0 0 < (int_colour [5, 3, 5, 9]).getD 3 0 ↔
      ([5, 3, 5, 9] : List Nat).get ⟨0, by decide⟩ < [5, 3, 5, 9].get ⟨3, by decide⟩) :=
  ((int_colour_spec [5, 3, 5, 9]).2 0 3 (by decide) (by decide)).2

/-!
### The index normalizer
-/

theorem piStep_none (key : SExpr → Nat) (involved : List (Nat × Sym)) (e : SExpr)
    (co : Nat) (ce : List Nat) (cs : List Perm) (o : List Nat) :
    piStep key involved e ⟨none, co, ce, cs⟩ o
      = ⟨some (formOf involved e o), key (formOf involved e o), o, []⟩ := rfl

theorem piStep_some_lt (key : SExpr → Nat) (involved : List (Nat × Sym)) (e : SExpr)
    (cf : SExpr) (co : Nat) (ce : List Nat) (cs : List Perm) (o : List Nat)
    (hlt : key (formOf involved e o) < co) :
    piStep key involved e ⟨some cf, co, ce, cs⟩ o
      = ⟨some (formOf involved e o), key (formOf involved e o), o, []⟩ := by
  simp [piStep, hlt]

theorem piStep_some_eq (key : SExpr → Nat) (involved : List (Nat × Sym)) (e : SExpr)
    (cf : SExpr) (co : Nat) (ce : List Nat) (cs : List Perm) (o : List Nat)
    (hlt : ¬ key (formOf involved e o) < co) (heq : formOf involved e o = cf) :
    piStep key involved e ⟨some cf, co, ce, cs⟩ o
      = ⟨some cf, co, ce, cs ++ [find_perm ce o]⟩ := by
  show (if key (formOf involved e o) < co then
      (⟨some (formOf involved e o), key (formOf involved e o), o, []⟩ : PIState)
    else if formOf involved e o = cf then ⟨some cf, co, ce, cs ++ [find_perm ce o]⟩
    else ⟨some cf, co, ce, cs⟩) = ⟨some cf, co, ce, cs ++ [find_perm ce o]⟩
  rw [if_neg hlt, if_pos heq]

theorem piStep_some_ne (key : SExpr → Nat) (involved : List (Nat × Sym)) (e : SExpr)
    (cf : SExpr) (co : Nat) (ce : List Nat) (cs : List Perm) (o : List Nat)
    (hlt : ¬ key (formOf involved e o) < co) (hne : ¬ formOf involved e o = cf) :
    piStep key involved e ⟨some cf, co, ce, cs⟩ o
      = ⟨some cf, co, ce, cs⟩ := by
  simp [piStep, hlt, hne]

/-- Once the state holds a form that no remaining candidate beats, the fold
only appends to the symmetry list the permutations of the candidates whose
form is exactly the current one. -/
theorem foldl_piStep_no_beat (key : SExpr → Nat) (involved : List (Nat × Sym))
    (e : SExpr) :
    ∀ (L : List (List Nat)) (cf : SExpr) (co : Nat) (ce : List Nat) (cs : List Perm),
      (∀ o ∈ L, ¬ key (formOf involved e o) < co) →
      L.foldl (piStep key involved e) ⟨some cf, co, ce, cs⟩
        = ⟨some cf, co, ce,
            cs ++ (L.filter (fun o => formOf involved e o == cf)).map
              (fun o => find_perm ce o)⟩ := by
  intro L
  induction L with
  | nil => intro cf co ce cs _; simp
  | cons a rest ih =>
      intro cf co ce cs h
      have ha : ¬ key (formOf involved e a) < co := h a (List.mem_cons_self _ _)
      have hrest : ∀ o ∈ rest, ¬ key (formOf involved e o) < co :=
        fun o ho => h o (List.mem_cons_of_mem _ ho)
      by_cases heq : formOf involved e a = cf
      · rw [List.foldl_cons, piStep_some_eq key involved e cf co ce cs a ha heq,
          ih cf co ce (cs ++ [find_perm ce a]) hrest]
        simp [List.filter_cons, heq]
      · rw [List.foldl_cons, piStep_some_ne key involved e cf co ce cs a ha heq,
          ih cf co ce cs hrest]
        simp [List.filter_cons, heq]

/-- Folding over a candidate list split around its first minimum: the state
ends at the first minimum, with the symmetry list holding exactly the
permutations to the later candidates of identical form. -/
theorem foldl_piStep_min (key : SExpr → Nat) (involved : List (Nat × Sym))
    (e : SExpr) :
    ∀ (A : List (List Nat)) (w : List Nat) (B : List (List Nat))
      (cf : SExpr) (co : Nat) (ce : List Nat) (cs : List Perm),
      (∀ o ∈ A, key (formOf involved e w) < key (formOf involved e o)) →
      (∀ o ∈ B, key (formOf involved e w) ≤ key (formOf involved e o)) →
      key (formOf involved e w) < co →
      (A ++ w :: B).foldl (piStep key involved e) ⟨some cf, co, ce, cs⟩
        = ⟨some (formOf involved e w), key (formOf involved e w), w,
            (B.filter (fun o => formOf involved e o == formOf involved e w)).map
              (fun o => find_perm w o)⟩ := by
  intro A
  induction A with
  | nil =>
      intro w B cf co ce cs _ hB hw
      rw [List.nil_append, List.foldl_cons,
        piStep_some_lt key involved e cf co ce cs w hw,
        foldl_piStep_no_beat key involved e B _ _ _ _
          (fun o ho => not_lt.mpr (hB o ho))]
      simp
  | cons a A2 ih =>
      intro w B cf co ce cs hA hB hw
      have haw : key (formOf involved e w) < key (formOf involved e a) :=
        hA a (List.mem_cons_self _ _)
      have hA2 : ∀ o ∈ A2, key (formOf involved e w) < key (formOf involved e o) :=
        fun o ho => hA o (List.mem_cons_of_mem _ ho)
      rw [List.cons_append, List.foldl_cons]
      by_cases h1 : key (formOf involved e a) < co
      · rw [piStep_some_lt key involved e cf co ce cs a h1]
        exact ih w B _ _ _ _ hA2 hB haw
      · by_cases h2 : formOf involved e a = cf
        · rw [piStep_some_eq key involved e cf co ce cs a h1 h2]
          exact ih w B _ _ _ _ hA2 hB hw
        · rw [piStep_some_ne key involved e cf co ce cs a h1 h2]
          exact ih w B _ _ _ _ hA2 hB hw

/-- Every nonempty list decomposes around its first element of minimal
value: everything before it is strictly larger, everything after is at
least as large. -/
theorem exists_first_min {α : Type} (f : α → Nat) :
    ∀ (L : List α), L ≠ [] →
      ∃ A w B, L = A ++ w :: B ∧ (∀ o ∈ A, f w < f o) ∧ (∀ o ∈ B, f w ≤ f o) := by
  intro L
  induction L with
  | nil => intro h; exact absurd rfl h
  | cons a rest ih =>
      intro _
      cases rest with
      | nil =>
          exact ⟨[], a, [], rfl, by simp, by simp⟩
      | cons b rest2 =>
          obtain ⟨A, w, B, hdec, hA, hB⟩ := ih (by simp)
          by_cases h : f w < f a
          · refine ⟨a :: A, w, B, by rw [hdec]; rfl, ?_, hB⟩
            intro o ho
            rcases List.mem_cons.mp ho with rfl | ho2
            · exact h
            · exact hA o ho2
          · refine ⟨[], a, b :: rest2, rfl, by simp, ?_⟩
            intro o ho
            have hwo : ∀ q ∈ b :: rest2, f w ≤ f q := by
              intro q hq
              rw [hdec] at hq
              rcases List.mem_append.mp hq with hq1 | hq2
              · exact le_of_lt (hA q hq1)
              · rcases List.mem_cons.mp hq2 with rfl | hq3
                · exact le_refl _
                · exact hB q hq3
            exact le_trans (not_lt.mp h) (hwo o ho)

/-- C3: for one index sub-expression with k involved summation nodes, the
index normalizer tries all k factorial orderings, appends one EXPR node
whose edges are the first ordering whose substituted form attains the
minimal sort key (strictly smaller than everything before it, no larger
than anything after it), whose colour is (EXPR, that minimal key), and
whose symmetry generators are exactly the permutations, in trial order,
mapping the winning ordering to every other tried ordering whose
substituted form is exactly equal to the winning form. -/
theorem proc_one_index_spec (key : SExpr → Nat) (dumms : List (Sym × Nat))
    (eldag : Eldag) (e : SExpr) (idx : Nat) (eldag2 : Eldag)
    (hnodup : (sumNodesOf dumms e).Nodup)
    (hok : procOneIndex key dumms eldag e = .ok (idx, eldag2)) :
    (sumNodesOf dumms e).permutations.length
      = Nat.factorial (sumNodesOf dumms e).length ∧
    (∀ o, List.Perm o (sumNodesOf dumms e) → o ∈ (sumNodesOf dumms e).permutations) ∧
    ∃ A w B,
      (sumNodesOf dumms e).permutations = A ++ w :: B ∧
      (∀ o ∈ A, key (formOf (involvedList dumms e) e w)
        < key (formOf (involvedList dumms e) e o)) ∧
      (∀ o ∈ B, key (formOf (involvedList dumms e) e w)
        ≤ key (formOf (involvedList dumms e) e o)) ∧
      idx = eldag.symms.length ∧
      eldag2 = (eldag.add_node w
        (if (((sumNodesOf dumms e).permutations.filter (fun o =>
              (formOf (involvedList dumms e) e o
                == formOf (involvedList dumms e) e w) && (o != w))).map
            (fun o => find_perm w o)).length > 0
          then some ⟨((sumNodesOf dumms e).permutations.filter (fun o =>
              (formOf (involvedList dumms e) e o
                == formOf (involvedList dumms e) e w) && (o != w))).map
            (fun o => find_perm w o)⟩
          else none)
        (Colour.expr (key (formOf (involvedList dumms e) e w)))).2 := by
  have hne : (sumNodesOf dumms e).permutations ≠ [] := by
    intro hcon
    have : (sumNodesOf dumms e) ∈ (sumNodesOf dumms e).permutations :=
      List.mem_permutations.mpr (List.Perm.refl _)
    rw [hcon] at this
    exact absurd this (by simp)
  obtain ⟨A, w, B, hdec, hA, hB⟩ :=
    exists_first_min (fun o => key (formOf (involvedList dumms e) e o))
      (sumNodesOf dumms e).permutations hne
  have hLnodup : ((sumNodesOf dumms e).permutations).Nodup :=
    List.nodup_permutations _ hnodup
  have hwB : w ∉ B := by
    rw [hdec] at hLnodup
    have := (List.nodup_append.mp hLnodup).2.1
    exact (List.nodup_cons.mp this).1
  -- The final state of the minimal-form search.
  have hst : (sumNodesOf dumms e).permutations.foldl
        (piStep key (involvedList dumms e) e) ⟨none, 0, [], []⟩
      = ⟨some (formOf (involvedList dumms e) e w),
          key (formOf (involvedList dumms e) e w), w,
          (B.filter (fun o => formOf (involvedList dumms e) e o
            == formOf (involvedList dumms e) e w)).map
            (fun o => find_perm w o)⟩ := by
    rw [hdec]
    cases A with
    | nil =>
        rw [List.nil_append, List.foldl_cons, piStep_none,
          foldl_piStep_no_beat key (involvedList dumms e) e B _ _ _ _
            (fun o ho => not_lt.mpr (hB o ho))]
        simp
    | cons a A2 =>
        rw [List.cons_append, List.foldl_cons, piStep_none]
        exact foldl_piStep_min key (involvedList dumms e) e A2 w B _ _ _ _
          (fun o ho => hA o (List.mem_cons_of_mem _ ho)) hB
          (hA a (List.mem_cons_self _ _))
  -- The filter over the whole candidate list reduces to the filter over B.
  have hfilter : (sumNodesOf dumms e).permutations.filter (fun o =>
        (formOf (involvedList dumms e) e o
          == formOf (involvedList dumms e) e w) && (o != w))
      = B.filter (fun o => formOf (involvedList dumms e) e o
          == formOf (involvedList dumms e) e w) := by
    rw [hdec, List.filter_append, List.filter_cons]
    have hAnone : A.filter (fun o =>
        (formOf (involvedList dumms e) e o
          == formOf (involvedList dumms e) e w) && (o != w)) = [] := by
      rw [List.filter_eq_nil]
      intro o ho
      have : formOf (involvedList dumms e) e o
          ≠ formOf (involvedList dumms e) e w := by
        intro hcon
        exact absurd (hcon ▸ rfl : key (formOf (involvedList dumms e) e w)
          = key (formOf (involvedList dumms e) e o)) (ne_of_lt (hA o ho))
      simp [this]
    have hwfalse : ((formOf (involvedList dumms e) e w
        == formOf (involvedList dumms e) e w) && (w != w)) = false := by
      simp
    have hBsame : B.filter (fun o =>
          (formOf (involvedList dumms e) e o
            == formOf (involvedList dumms e) e w) && (o != w))
        = B.filter (fun o => formOf (involvedList dumms e) e o
            == formOf (involvedList dumms e) e w) := by
      apply List.filter_congr
      intro o ho
      have how : o ≠ w := fun hcon => hwB (hcon ▸ ho)
      simp [how]
    rw [hAnone, hwfalse, hBsame]
    simp
  have hle : ¬ 2 < (sumNodesOf dumms e).length := by
    intro hcon
    unfold procOneIndex at hok
    rw [if_pos hcon] at hok
    exact absurd hok (by simp)
  refine ⟨List.length_permutations _, fun o ho => List.mem_permutations.mpr ho,
    A, w, B, hdec, hA, hB, ?_, ?_⟩
  · unfold procOneIndex at hok
    rw [if_neg hle, hst] at hok
    have hp := Except.ok.inj hok
    exact (congrArg Prod.fst hp).symm
  · rw [hfilter]
    unfold procOneIndex at hok
    rw [if_neg hle, hst] at hok
    have hp := Except.ok.inj hok
    exact (congrArg Prod.snd hp).symm

/-- The demonstration dummy mapping: two summations over the symbols 0, 1. -/
def demoDumms : List (Sym × Nat) := [(Sym.var 0, 0), (Sym.var 1, 1)]

/-- The demonstration index expression: the sum of the two dummies. -/
def demoIdxExpr : SExpr := SExpr.add (SExpr.sym (Sym.var 0)) (SExpr.sym (Sym.var 1))

/-- Witness: the index-normalizer characterization evaluated at a concrete
index expression involving two summed dummies. -/
theorem proc_one_index_spec_witness :
    (sumNodesOf demoDumms demoIdxExpr).permutations.length
      = Nat.factorial (sumNodesOf demoDumms demoIdxExpr).length ∧
    (∀ o, List.Perm o (sumNodesOf demoDumms demoIdxExpr) →
      o ∈ (sumNodesOf demoDumms demoIdxExpr).permutations) ∧
    ∃ A w B,
      (sumNodesOf demoDumms demoIdxExpr).permutations = A ++ w :: B ∧
      (∀ o ∈ A, sympy_key (formOf (involvedList demoDumms demoIdxExpr) demoIdxExpr w)
        < sympy_key (formOf (involvedList demoDumms demoIdxExpr) demoIdxExpr o)) ∧
      (∀ o ∈ B, sympy_key (formOf (involvedList demoDumms demoIdxExpr) demoIdxExpr w)
        ≤ sympy_key (formOf (involvedList demoDumms demoIdxExpr) demoIdxExpr o)) ∧
      (okD (procOneIndex sympy_key demoDumms Eldag.empty demoIdxExpr) (0, Eldag.empty)).1
        = Eldag.empty.symms.length ∧
      (okD (procOneIndex sympy_key demoDumms Eldag.empty demoIdxExpr) (0, Eldag.empty)).2
        = (Eldag.empty.add_node w
            (if (((sumNodesOf demoDumms demoIdxExpr).permutations.filter (fun o =>
                  (formOf (involvedList demoDumms demoIdxExpr) demoIdxExpr o
                    == formOf (involvedList demoDumms demoIdxExpr) demoIdxExpr w)
                    && (o != w))).map
                (fun o => find_perm w o)).length > 0
              then some ⟨((sumNodesOf demoDumms demoIdxExpr).permutations.filter (fun o =>
                  (formOf (involvedList demoDumms demoIdxExpr) demoIdxExpr o
                    == formOf (involvedList demoDumms demoIdxExpr) demoIdxExpr w)
                    && (o != w))).map
                (fun o => find_perm w o)⟩
              else none)
            (Colour.expr (sympy_key
              (formOf (involvedList demoDumms demoIdxExpr) demoIdxExpr w)))).2 :=
  proc_one_index_spec sympy_key demoDumms Eldag.empty demoIdxExpr
    (okD (procOneIndex sympy_key demoDumms Eldag.empty demoIdxExpr) (0, Eldag.empty)).1
    (okD (procOneIndex sympy_key demoDumms Eldag.empty demoIdxExpr) (0, Eldag.empty)).2
    (by decide) (by rfl)

/-!
### Structure of the built Eldag
-/

/-- The colours and symmetries of the initial summation segment of the
Eldag: one SUM node per summation, no symmetry. -/
theorem sumsEldag_fields (sums : List (Sym × Nat)) :
    (sums.foldl (fun e s => (e.add_node [] none (Colour.sum s.2)).2) Eldag.empty).colours
        = sums.map (fun s => Colour.sum s.2) ∧
    (sums.foldl (fun e s => (e.add_node [] none (Colour.sum s.2)).2) Eldag.empty).symms
        = sums.map (fun _ => none) := by
  induction sums using List.reverseRecOn with
  | nil => exact ⟨rfl, rfl⟩
  | append_singleton cs c ih =>
      rw [List.foldl_append]
      refine ⟨?_, ?_⟩
      · show (List.foldl _ Eldag.empty cs).colours ++ [Colour.sum c.2] = _
        rw [ih.1]
        simp
      · show (List.foldl _ Eldag.empty cs).symms ++ [none] = _
        rw [ih.2]
        simp

theorem procOneIndex_ok_fields (key : SExpr → Nat) (dumms : List (Sym × Nat))
    (e0 : Eldag) (i : SExpr) (idx : Nat) (e1 : Eldag)
    (hok : procOneIndex key dumms e0 i = .ok (idx, e1)) :
    ∃ w symmOpt k, e1 = (e0.add_node w symmOpt (Colour.expr k)).2 ∧
      idx = e0.symms.length := by
  unfold procOneIndex at hok
  by_cases h : 2 < (sumNodesOf dumms i).length
  · rw [if_pos h] at hok
    exact absurd hok (by simp)
  · rw [if_neg h] at hok
    have hp := Except.ok.inj hok
    exact ⟨_, _, _, (congrArg Prod.snd hp).symm, (congrArg Prod.fst hp).symm⟩

theorem proc_indices_appends (key : SExpr → Nat) (dumms : List (Sym × Nat)) :
    ∀ (idxs : List SExpr) (e0 : Eldag) (ns : List Nat) (e1 : Eldag),
      proc_indices key dumms e0 idxs = .ok (ns, e1) →
      ∃ ss cols, e1.symms = e0.symms ++ ss ∧ e1.colours = e0.colours ++ cols ∧
        ss.length = cols.length ∧ (∀ c ∈ cols, c.tag = 1) := by
  intro idxs
  induction idxs with
  | nil =>
      intro e0 ns e1 hok
      unfold proc_indices at hok
      simp only [Except.ok.injEq, Prod.mk.injEq] at hok
      obtain ⟨_, he⟩ := hok
      subst he
      exact ⟨[], [], by simp, by simp, rfl, by simp⟩
  | cons i rest ih =>
      intro e0 ns e1 hok
      unfold proc_indices at hok
      cases hone : procOneIndex key dumms e0 i with
      | error m => rw [hone] at hok; exact absurd hok (by simp)
      | ok pr =>
          obtain ⟨idx, ea⟩ := pr
          rw [hone] at hok
          dsimp only at hok
          cases hrest : proc_indices key dumms ea rest with
          | error m => rw [hrest] at hok; exact absurd hok (by simp)
          | ok pr2 =>
              obtain ⟨idxs2, eb⟩ := pr2
              rw [hrest] at hok
              simp only [Except.ok.injEq, Prod.mk.injEq] at hok
              obtain ⟨_, he⟩ := hok
              subst he
              obtain ⟨w, symmOpt, k, hea, _⟩ :=
                procOneIndex_ok_fields key dumms e0 i idx ea hone
              obtain ⟨ss2, cols2, hs2, hc2, hl2, ht2⟩ := ih ea idxs2 eb hrest
              refine ⟨symmOpt :: ss2, Colour.expr k :: cols2, ?_, ?_, by simp [hl2], ?_⟩
              · rw [hs2, hea]
                show e0.symms ++ [symmOpt] ++ ss2 = _
                simp
              · rw [hc2, hea]
                show e0.colours ++ [Colour.expr k] ++ cols2 = _
                simp
              · intro c hc
                rcases List.mem_cons.mp hc with rfl | hc2m
                · rfl
                · exact ht2 c hc2m

theorem buildFactors_spec (key : SExpr → Nat) (dumms : List (Sym × Nat))
    (symms : SymmTable) :
    ∀ (fs : List (Factor × Nat)) (e0 e3 : Eldag) (fidxes : List Nat),
      e0.colours.length = e0.symms.length →
      buildFactors key dumms symms e0 fs = .ok (e3, fidxes) →
      fidxes.length = fs.length ∧
      e3.colours.length = e3.symms.length ∧
      (∃ ss cols, e3.symms = e0.symms ++ ss ∧ e3.colours = e0.colours ++ cols ∧
        (∀ c ∈ cols, c.tag ≠ 0)) ∧
      (∀ j (hj : j < fs.length),
        e3.symms.getD (fidxes.getD j 0) none
            = factorSymmsOf symms (fs.get ⟨j, hj⟩).1 ∧
        e3.colours.getD (fidxes.getD j 0) (Colour.sum 0)
            = Colour.factor (fs.get ⟨j, hj⟩).2) := by
  intro fs
  induction fs with
  | nil =>
      intro e0 e3 fidxes h0 hok
      unfold buildFactors at hok
      simp only [Except.ok.injEq, Prod.mk.injEq] at hok
      obtain ⟨he, hf⟩ := hok
      subst he
      subst hf
      exact ⟨rfl, h0, ⟨[], [], by simp, by simp, by simp⟩,
        fun j hj => absurd hj (by simp)⟩
  | cons fc rest ih =>
      intro e0 e3 fidxes h0 hok
      obtain ⟨f, colour⟩ := fc
      unfold buildFactors at hok
      cases hpi : proc_indices key dumms e0 f.indices with
      | error m => rw [hpi] at hok; exact absurd hok (by simp)
      | ok pr =>
          obtain ⟨index_nodes, e1⟩ := pr
          rw [hpi] at hok
          dsimp only at hok
          cases hbf : buildFactors key dumms symms
              (e1.add_node index_nodes (factorSymmsOf symms f)
                (Colour.factor colour)).2 rest with
          | error m => rw [hbf] at hok; exact absurd hok (by simp)
          | ok pr2 =>
              obtain ⟨e3x, idxs⟩ := pr2
              rw [hbf] at hok
              simp only [Except.ok.injEq, Prod.mk.injEq] at hok
              obtain ⟨he3, hfid⟩ := hok
              subst he3
              have hr1 : (e1.add_node index_nodes (factorSymmsOf symms f)
                  (Colour.factor colour)).1 = e1.symms.length := rfl
              rw [hr1] at hfid
              obtain ⟨ssP, colsP, hsymP, hcolP, hlenP, htagP⟩ :=
                proc_indices_appends key dumms f.indices e0 index_nodes e1 hpi
              have h1len : e1.colours.length = e1.symms.length := by
                rw [hsymP, hcolP]
                simp [h0, hlenP]
              have h2len : ((e1.add_node index_nodes (factorSymmsOf symms f)
                  (Colour.factor colour)).2).colours.length
                  = ((e1.add_node index_nodes (factorSymmsOf symms f)
                    (Colour.factor colour)).2).symms.length := by
                show (e1.colours ++ [Colour.factor colour]).length
                  = (e1.symms ++ [factorSymmsOf symms f]).length
                simp [h1len]
              obtain ⟨ihlen, ihlens, ⟨ssR, colsR, hsymR, hcolR, htagR⟩, ihpt⟩ :=
                ih _ e3x idxs h2len hbf
              have hsym2 : (e1.add_node index_nodes (factorSymmsOf symms f)
                  (Colour.factor colour)).2.symms
                  = e1.symms ++ [factorSymmsOf symms f] := rfl
              have hcol2 : (e1.add_node index_nodes (factorSymmsOf symms f)
                  (Colour.factor colour)).2.colours
                  = e1.colours ++ [Colour.factor colour] := rfl
              refine ⟨?_, ihlens, ?_, ?_⟩
              · rw [← hfid]
                simp [ihlen]
              · refine ⟨ssP ++ [factorSymmsOf symms f] ++ ssR,
                  colsP ++ [Colour.factor colour] ++ colsR, ?_, ?_, ?_⟩
                · rw [hsymR, hsym2, hsymP]
                  simp
                · rw [hcolR, hcol2, hcolP]
                  simp
                · intro c hc
                  rcases List.mem_append.mp hc with hc1 | hcR
                  · rcases List.mem_append.mp hc1 with hcP | hcF
                    · rw [htagP c hcP]; omega
                    · rcases List.mem_singleton.mp hcF with rfl
                      simp [Colour.tag]
                  · exact htagR c hcR
              · intro j hj
                rw [← hfid]
                cases j with
                | zero =>
                    have hidx0 : ((e1.symms.length :: idxs).getD 0 0)
                        = e1.symms.length := rfl
                    have hsymval : e3x.symms.getD e1.symms.length none
                        = factorSymmsOf symms f := by
                      rw [hsymR, hsym2]
                      rw [List.getD_append _ _ _ _ (by simp)]
                      rw [List.getD_append_right _ _ _ _ (le_refl _)]
                      simp
                    have hcolval : e3x.colours.getD e1.symms.length (Colour.sum 0)
                        = Colour.factor colour := by
                      rw [hcolR, hcol2]
                      rw [List.getD_append _ _ _ _ (by simp [h1len])]
                      rw [← h1len, List.getD_append_right _ _ _ _ (le_refl _)]
                      simp
                    exact ⟨by rw [hidx0]; exact hsymval, by rw [hidx0]; exact hcolval⟩
                | succ j =>
                    have hj2 : j < rest.length := by
                      simpa using Nat.lt_of_succ_lt_succ hj
                    have := ihpt j hj2
                    simpa using this

/-- The full structure of the Eldag built by _build_eldag: the factor node
index mapping, the SUM-tagged initial segment, and the symmetry and colour
attached to every factor node. -/
theorem build_eldag_spec (key : SExpr → Nat) (sums : List (Sym × Nat))
    (factors : List (Factor × Nat)) (symms : SymmTable) (eldag : Eldag)
    (fidxes : List Nat)
    (hok : build_eldag key sums factors symms = .ok (eldag, fidxes)) :
    fidxes.length = factors.length ∧
    sums.length ≤ eldag.colours.length ∧
    (∀ i (hi : i < sums.length),
      eldag.colours.getD i (Colour.factor 0) = Colour.sum ((sums.get ⟨i, hi⟩).2)) ∧
    (∀ i, i < eldag.colours.length → sums.length ≤ i →
      (eldag.colours.getD i (Colour.factor 0)).tag ≠ 0) ∧
    (∀ j (hj : j < factors.length),
      eldag.symms.getD (fidxes.getD j 0) none
          = factorSymmsOf symms (factors.get ⟨j, hj⟩).1 ∧
      eldag.colours.getD (fidxes.getD j 0) (Colour.sum 0)
          = Colour.factor ((factors.get ⟨j, hj⟩).2)) := by
  unfold build_eldag at hok
  set e0 := sums.foldl (fun e s => (e.add_node [] none (Colour.sum s.2)).2)
    Eldag.empty with he0
  obtain ⟨hc0, hs0⟩ := sumsEldag_fields sums
  have h0len : e0.colours.length = e0.symms.length := by
    rw [hc0, hs0]; simp
  obtain ⟨hlen, hlens, ⟨ss, cols, hsym, hcol, htags⟩, hpt⟩ :=
    buildFactors_spec key (sums.enum.map (fun p => (p.2.1, p.1))) symms factors
      e0 eldag fidxes h0len hok
  have hc0len : e0.colours.length = sums.length := by rw [hc0]; simp
  refine ⟨hlen, ?_, ?_, ?_, hpt⟩
  · rw [hcol, hc0]
    simp
  · intro i hi
    rw [hcol, List.getD_append _ _ _ _ (by rw [hc0len]; exact hi), hc0]
    rw [List.getD_eq_getElem _ _ (by simpa using hi), List.getElem_map]
    rfl
  · intro i hitot hige
    rw [hcol, List.getD_append_right _ _ _ _ (by rw [hc0len]; exact hige)]
    have hib : i - e0.colours.length < cols.length := by
      rw [hcol, List.length_append] at hitot
      omega
    rw [List.getD_eq_getElem _ _ hib]
    exact htags _ (List.getElem_mem hib)

/-!
### The driver and its result assembly
-/

theorem okD_ok {α : Type} (a : α) (d : α) : okD (.ok a) d = a := rfl

/-- Evaluation of the driver on a successfully built Eldag. -/
theorem canon_factors_eq_of_build (key : SExpr → Nat)
    (canonFn : List Nat → List Nat → List (Option Group) → List Nat →
      List Nat × List (Option Perm))
    (sums : List (Sym × Nat)) (factors : List (Factor × Nat)) (symms : SymmTable)
    (eldag : Eldag) (fidxes : List Nat)
    (hbuild : build_eldag key sums factors symms = .ok (eldag, fidxes))
    (hcase : ¬ (factors.length = 0 ∧ sums.length = 0)) :
    canon_factors key canonFn sums factors symms
      = .ok ((((eldag.canon canonFn).1.filter
            (fun i => (eldag.colours.getD i (Colour.factor 0)).tag == 0)).map
            (fun i => sums.getD i (Sym.var 0, 0))),
          (factorLoop (eldag.canon canonFn).2 (factors.zip fidxes) 1).1,
          (factorLoop (eldag.canon canonFn).2 (factors.zip fidxes) 1).2) := by
  unfold canon_factors
  rw [if_neg hcase, hbuild]

theorem factorLoop_fst (perms : List (Option Perm)) :
    ∀ (l : List ((Factor × Nat) × Nat)) (c : Int),
      (factorLoop perms l c).1
        = l.map (fun pr => (processOneFactor (perms.getD pr.2 none) pr.1.1).1) := by
  intro l
  induction l with
  | nil => intro c; rfl
  | cons hd rest ih =>
      intro c
      obtain ⟨fc, nodeIdx⟩ := hd
      show ((processOneFactor (perms.getD nodeIdx none) fc.1).1
          :: (factorLoop perms rest _).1) = _
      rw [ih]
      rfl

theorem factorLoop_snd (perms : List (Option Perm)) :
    ∀ (l : List ((Factor × Nat) × Nat)) (c : Int),
      (factorLoop perms l c).2
        = c * (l.map (fun pr => (processOneFactor (perms.getD pr.2 none) pr.1.1).2)).prod := by
  intro l
  induction l with
  | nil => intro c; show c = c * 1; rw [mul_one]
  | cons hd rest ih =>
      intro c
      obtain ⟨fc, nodeIdx⟩ := hd
      show (factorLoop perms rest
          (c * (processOneFactor (perms.getD nodeIdx none) fc.1).2)).2 = _
      rw [ih, List.map_cons, List.prod_cons, mul_assoc]

/-- C7: the canonical summations returned by canon_factors are obtained by
walking the canonical node order and emitting the original summation of
every SUM-tagged node with its (symbol, range) pair verbatim, and the
returned summation list is a permutation of the input summation list. -/
theorem canon_factors_sums_spec (key : SExpr → Nat)
    (canonFn : List Nat → List Nat → List (Option Group) → List Nat →
      List Nat × List (Option Perm))
    (sums : List (Sym × Nat)) (factors : List (Factor × Nat)) (symms : SymmTable)
    (eldag : Eldag) (fidxes : List Nat)
    (hbuild : build_eldag key sums factors symms = .ok (eldag, fidxes))
    (hperm : List.Perm (eldag.canon canonFn).1 (List.range eldag.colours.length)) :
    canon_factors key canonFn sums factors symms
      = .ok (okD (canon_factors key canonFn sums factors symms) ([], [], 1)) ∧
    (okD (canon_factors key canonFn sums factors symms) ([], [], 1)).1
      = ((eldag.canon canonFn).1.filter
          (fun i => (eldag.colours.getD i (Colour.factor 0)).tag == 0)).map
          (fun i => sums.getD i (Sym.var 0, 0)) ∧
    List.Perm (okD (canon_factors key canonFn sums factors symms) ([], [], 1)).1 sums := by
  obtain ⟨hlen, hle, hsumcol, htagge, hpt⟩ :=
    build_eldag_spec key sums factors symms eldag fidxes hbuild
  have hfperm : List.Perm
      ((eldag.canon canonFn).1.filter
        (fun i => (eldag.colours.getD i (Colour.factor 0)).tag == 0))
      ((List.range eldag.colours.length).filter
        (fun i => (eldag.colours.getD i (Colour.factor 0)).tag == 0)) :=
    hperm.filter _
  have hrangefilter : (List.range eldag.colours.length).filter
        (fun i => (eldag.colours.getD i (Colour.factor 0)).tag == 0)
      = List.range sums.length := by
    obtain ⟨t, ht⟩ : ∃ t, eldag.colours.length = sums.length + t :=
      ⟨eldag.colours.length - sums.length, by omega⟩
    rw [ht, List.range_add, List.filter_append]
    have h1 : (List.range sums.length).filter
        (fun i => (eldag.colours.getD i (Colour.factor 0)).tag == 0)
        = List.range sums.length := by
      rw [List.filter_eq_self]
      intro a ha
      have hia : a < sums.length := List.mem_range.mp ha
      rw [hsumcol a hia]
      rfl
    have h2 : ((List.range t).map (fun x => sums.length + x)).filter
        (fun i => (eldag.colours.getD i (Colour.factor 0)).tag == 0) = [] := by
      rw [List.filter_eq_nil]
      intro a ha
      obtain ⟨x, hx, rfl⟩ := List.mem_map.mp ha
      have hxlt : x < t := List.mem_range.mp hx
      have := htagge (sums.length + x) (by omega) (by omega)
      simpa using this
    rw [h1, h2, List.append_nil]
  have hmapsums : (List.range sums.length).map (fun i => sums.getD i (Sym.var 0, 0))
      = sums := by
    apply List.ext_getElem
    · simp
    · intro n h1 h2
      simp only [List.getElem_map, List.getElem_range]
      exact List.getD_eq_getElem sums _ h2
  by_cases hcase : factors.length = 0 ∧ sums.length = 0
  · obtain ⟨hf0, hs0⟩ := hcase
    have hsums : sums = [] := List.length_eq_zero.mp hs0
    have hfact : factors = [] := List.length_eq_zero.mp hf0
    subst hsums
    subst hfact
    have hbe : build_eldag key [] [] symms = .ok (Eldag.empty, []) := rfl
    rw [hbe] at hbuild
    have hp := Except.ok.inj hbuild
    have heldag : Eldag.empty = eldag := congrArg Prod.fst hp
    have hcl : eldag.colours.length = 0 := by rw [← heldag]; rfl
    have hno : (eldag.canon canonFn).1 = [] := by
      have hperm2 := hperm
      rw [hcl] at hperm2
      exact hperm2.eq_nil
    refine ⟨rfl, ?_, ?_⟩
    · rw [hno]
      rfl
    · exact List.Perm.refl _
  · rw [canon_factors_eq_of_build key canonFn sums factors symms eldag fidxes
      hbuild hcase]
    refine ⟨rfl, rfl, ?_⟩
    rw [okD_ok]
    have h1 := hfperm.map (fun i => sums.getD i (Sym.var 0, 0))
    rw [hrangefilter, hmapsums] at h1
    exact h1

/-- The demonstration inputs of the summation-order claim. -/
def c7Sums : List (Sym × Nat) := [(Sym.var 0, 0), (Sym.var 1, 1)]

/-- One factor with the single index i, over the demonstration summations. -/
def c7Factors : List (Factor × Nat) := [(⟨0, [SExpr.sym (Sym.var 0)]⟩, 7)]

/-- A concrete canonicalizer output: a permutation of the four node indices
and no local permutation actions. -/
def c7Fn : List Nat → List Nat → List (Option Group) → List Nat →
    List Nat × List (Option Perm) :=
  fun _ _ _ _ => ([3, 1, 0, 2], [none, none, none, none])

/-- The Eldag built for the demonstration inputs. -/
def c7Eldag : Eldag := (okD (build_eldag sympy_key c7Sums c7Factors []) (Eldag.empty, [])).1

/-- The factor node indices built for the demonstration inputs. -/
def c7Fidxes : List Nat := (okD (build_eldag sympy_key c7Sums c7Factors []) (Eldag.empty, [])).2

/-- Witness: the summation-order specification evaluated at the concrete
demonstration inputs. -/
theorem canon_factors_sums_spec_witness :
    canon_factors sympy_key c7Fn c7Sums c7Factors []
      = .ok (okD (canon_factors sympy_key c7Fn c7Sums c7Factors []) ([], [], 1)) ∧
    (okD (canon_factors sympy_key c7Fn c7Sums c7Factors []) ([], [], 1)).1
      = ((c7Eldag.canon c7Fn).1.filter
          (fun i => (c7Eldag.colours.getD i (Colour.factor 0)).tag == 0)).map
          (fun i => c7Sums.getD i (Sym.var 0, 0)) ∧
    List.Perm (okD (canon_factors sympy_key c7Fn c7Sums c7Factors []) ([], [], 1)).1
      c7Sums :=
  canon_factors_sums_spec sympy_key c7Fn c7Sums c7Factors [] c7Eldag c7Fidxes
    (by rfl) (by decide)

/-!
### The symmetry lookup (C5, C10) and the factor assembly (C4, C2)
-/

/-- C5 (amended): for every factor with at least two indices, the symmetry
group attached to its FACTOR node is found by looking up the exact
(base, arity) key first, falling back to the bare base key, falling back to
none; a factor with fewer than two indices always gets none attached,
regardless of the table (the claim as stated omits the arity guard). -/
theorem factor_symmetry_lookup (key : SExpr → Nat) (sums : List (Sym × Nat))
    (factors : List (Factor × Nat)) (symms : SymmTable) (eldag : Eldag)
    (fidxes : List Nat)
    (hbuild : build_eldag key sums factors symms = .ok (eldag, fidxes))
    (j : Nat) (hj : j < factors.length) :
    eldag.symms.getD (fidxes.getD j 0) none
      = (if (factors.get ⟨j, hj⟩).1.indices.length < 2 then none
        else
          match alookup symms (SymKey.baseArity (factors.get ⟨j, hj⟩).1.base
              (factors.get ⟨j, hj⟩).1.indices.length) with
          | some g => some g
          | none => alookup symms (SymKey.base (factors.get ⟨j, hj⟩).1.base)) := by
  have h := ((build_eldag_spec key sums factors symms eldag fidxes hbuild).2.2.2.2
    j hj).1
  rw [h]
  unfold factorSymmsOf
  by_cases hs : (factors.get ⟨j, hj⟩).1.indices.length < 2
  · rw [if_pos hs, if_pos hs]
  · rw [if_neg hs, if_neg hs]
    cases halk : alookup symms (SymKey.baseArity (factors.get ⟨j, hj⟩).1.base
        (factors.get ⟨j, hj⟩).1.indices.length) with
    | none =>
        cases alookup symms (SymKey.base (factors.get ⟨j, hj⟩).1.base) <;> rfl
    | some g => rfl

/-- A table holding a sign-flip group under the bare base key 4. -/
def c5Table : SymmTable := [(SymKey.base 4, ⟨[⟨[1, 0], NEG⟩]⟩)]

/-- A two-index factor with base 4, whose indices involve no dummies. -/
def c5Factors : List (Factor × Nat) :=
  [(⟨4, [SExpr.sym (Sym.var 5), SExpr.sym (Sym.var 6)]⟩, 0)]

/-- The Eldag built for the two-index factor over the table. -/
def c5Eldag : Eldag :=
  (okD (build_eldag sympy_key [] c5Factors c5Table) (Eldag.empty, [])).1

/-- The factor node indices of that build. -/
def c5Fidxes : List Nat :=
  (okD (build_eldag sympy_key [] c5Factors c5Table) (Eldag.empty, [])).2

/-- Witness: the symmetry lookup read off for the concrete two-index
factor whose base has an entry in the table. -/
theorem factor_symmetry_lookup_witness :
    c5Eldag.symms.getD (c5Fidxes.getD 0 0) none
      = (if (c5Factors.get ⟨0, by decide⟩).1.indices.length < 2 then none
        else
          match alookup c5Table (SymKey.baseArity (c5Factors.get ⟨0, by decide⟩).1.base
              (c5Factors.get ⟨0, by decide⟩).1.indices.length) with
          | some g => some g
          | none => alookup c5Table (SymKey.base (c5Factors.get ⟨0, by decide⟩).1.base)) :=
  factor_symmetry_lookup sympy_key [] c5Factors c5Table c5Eldag c5Fidxes
    (by rfl) 0 (by decide)

/-- A single-index factor with the same base 4. -/
def c5bFactors : List (Factor × Nat) := [(⟨4, [SExpr.sym (Sym.var 5)]⟩, 0)]

/-- Counterexample to C5 as stated: the table holds a group under the base
key of this single-index factor, yet no symmetry is attached to its FACTOR
node, because the arity guard of the source precedes the table lookup. -/
theorem factor_symmetry_lookup_counterexample :
    alookup c5Table (SymKey.base 4) = some ⟨[⟨[1, 0], NEG⟩]⟩ ∧
    (okD (build_eldag sympy_key [] c5bFactors c5Table) (Eldag.empty, [])).1.symms.getD
      ((okD (build_eldag sympy_key [] c5bFactors c5Table) (Eldag.empty, [])).2.getD 0 0)
      none = none ∧
    (some (⟨[⟨[1, 0], NEG⟩]⟩ : Group) : Option Group) ≠ none :=
  ⟨rfl, rfl, by decide⟩

theorem processOneFactor_small (perm : Option Perm) (f : Factor)
    (h : f.indices.length < 2) : processOneFactor perm f = (f.val, 1) := by
  simp [processOneFactor, h]

/-- The per-factor assembly rule with its let bindings spelled out. -/
theorem processOneFactor_eq (perm : Option Perm) (f : Factor) :
    processOneFactor perm f
      = if f.indices.length < 2 then (f.val, 1)
        else match perm with
          | none => (f.val, 1)
          | some p =>
              (if p.acc &&& CONJ ≠ 0 then
                  FVal.conj (FVal.ind f.base ((List.range f.indices.length).map
                    (fun i => f.indices.getD (p.images.getD i 0) (SExpr.sym (Sym.var 0)))))
                else FVal.ind f.base ((List.range f.indices.length).map
                  (fun i => f.indices.getD (p.images.getD i 0) (SExpr.sym (Sym.var 0)))),
               if p.acc &&& NEG ≠ 0 then (-1 : Int) else 1) := by
  cases perm <;> by_cases h : f.indices.length < 2 <;>
    simp [processOneFactor, h]

/-- C10: a factor with fewer than two indices gets no symmetry group
attached to its FACTOR node, even when the symmetry table declares a group
for its base or its (base, arity) pair, and canon_factors returns that
factor completely unchanged for every canonicalizer output. -/
theorem small_factor_untouched (key : SExpr → Nat)
    (canonFn : List Nat → List Nat → List (Option Group) → List Nat →
      List Nat × List (Option Perm))
    (sums : List (Sym × Nat)) (factors : List (Factor × Nat)) (symms : SymmTable)
    (eldag : Eldag) (fidxes : List Nat)
    (hbuild : build_eldag key sums factors symms = .ok (eldag, fidxes))
    (j : Nat) (hj : j < factors.length)
    (hsmall : (factors.get ⟨j, hj⟩).1.indices.length < 2) :
    eldag.symms.getD (fidxes.getD j 0) none = none ∧
    (okD (canon_factors key canonFn sums factors symms) ([], [], 1)).2.1.getD j
      (FVal.ind 0 []) = (factors.get ⟨j, hj⟩).1.val := by
  have hlenf := (build_eldag_spec key sums factors symms eldag fidxes hbuild).1
  constructor
  · have h := ((build_eldag_spec key sums factors symms eldag fidxes hbuild).2.2.2.2
      j hj).1
    rw [h]
    unfold factorSymmsOf
    rw [if_pos hsmall]
  · have hcase : ¬ (factors.length = 0 ∧ sums.length = 0) := by
      rintro ⟨h1, _⟩
      omega
    rw [canon_factors_eq_of_build key canonFn sums factors symms eldag fidxes
      hbuild hcase, okD_ok, factorLoop_fst]
    have hzlen : j < (factors.zip fidxes).length := by
      rw [List.length_zip]
      omega
    rw [List.getD_eq_getElem _ _ (by simpa using hzlen)]
    simp only [List.getElem_map, List.getElem_zip]
    have hsmall2 : (factors[j]).1.indices.length < 2 := hsmall
    rw [processOneFactor_small _ _ hsmall2]
    rfl

/-- A canonicalizer output for the single-index factor demonstration; the
factor node carries a permutation result, which must still be ignored. -/
def c10Fn : List Nat → List Nat → List (Option Group) → List Nat →
    List Nat × List (Option Perm) :=
  fun _ _ _ _ => ([1, 0], [none, some ⟨[0], 1⟩])

/-- The Eldag built for the single-index factor over the table. -/
def c10Eldag : Eldag :=
  (okD (build_eldag sympy_key [] c5bFactors c5Table) (Eldag.empty, [])).1

/-- The factor node indices of the single-index factor build. -/
def c10Fidxes : List Nat :=
  (okD (build_eldag sympy_key [] c5bFactors c5Table) (Eldag.empty, [])).2

/-- Witness: the single-index factor keeps no symmetry and is returned
unchanged, although its base has a table entry and its node has a
permutation result. -/
theorem small_factor_untouched_witness :
    c10Eldag.symms.getD (c10Fidxes.getD 0 0) none = none ∧
    (okD (canon_factors sympy_key c10Fn [] c5bFactors c5Table) ([], [], 1)).2.1.getD 0
      (FVal.ind 0 []) = (c5bFactors.get ⟨0, by decide⟩).1.val :=
  small_factor_untouched sympy_key c10Fn [] c5bFactors c5Table c10Eldag c10Fidxes
    (by rfl) 0 (by decide) (by decide)

/-- C4: in the result assembly of canon_factors, every factor whose arity
is below two or whose permutation result is absent is returned unchanged;
otherwise the factor is rebuilt from its base with the new index at
position i equal to the original index at perm(i), a set CONJ flag wraps
the rebuilt value in a conjugation, and the returned coefficient is the
product over all factors of -1 for every set NEG flag, accumulating
multiplicatively across factors. -/
theorem canon_factors_assembly (key : SExpr → Nat)
    (canonFn : List Nat → List Nat → List (Option Group) → List Nat →
      List Nat × List (Option Perm))
    (sums : List (Sym × Nat)) (factors : List (Factor × Nat)) (symms : SymmTable)
    (eldag : Eldag) (fidxes : List Nat)
    (hbuild : build_eldag key sums factors symms = .ok (eldag, fidxes)) :
    (∀ j (hj : j < factors.length),
      (okD (canon_factors key canonFn sums factors symms) ([], [], 1)).2.1.getD j
        (FVal.ind 0 [])
        = (if (factors.get ⟨j, hj⟩).1.indices.length < 2 then (factors.get ⟨j, hj⟩).1.val
          else match (eldag.canon canonFn).2.getD (fidxes.getD j 0) none with
            | none => (factors.get ⟨j, hj⟩).1.val
            | some p =>
                if p.acc &&& CONJ ≠ 0 then
                  FVal.conj (FVal.ind (factors.get ⟨j, hj⟩).1.base
                    ((List.range (factors.get ⟨j, hj⟩).1.indices.length).map
                      (fun i => (factors.get ⟨j, hj⟩).1.indices.getD
                        (p.images.getD i 0) (SExpr.sym (Sym.var 0)))))
                else FVal.ind (factors.get ⟨j, hj⟩).1.base
                  ((List.range (factors.get ⟨j, hj⟩).1.indices.length).map
                    (fun i => (factors.get ⟨j, hj⟩).1.indices.getD
                      (p.images.getD i 0) (SExpr.sym (Sym.var 0)))))) ∧
    (okD (canon_factors key canonFn sums factors symms) ([], [], 1)).2.2
      = ((factors.zip fidxes).map (fun pr =>
          if pr.1.1.indices.length < 2 then (1 : Int)
          else match (eldag.canon canonFn).2.getD pr.2 none with
            | none => 1
            | some p => if p.acc &&& NEG ≠ 0 then (-1 : Int) else 1)).prod := by
  have hlenf := (build_eldag_spec key sums factors symms eldag fidxes hbuild).1
  by_cases hcase : factors.length = 0 ∧ sums.length = 0
  · obtain ⟨h1, h2⟩ := hcase
    have hf : factors = [] := List.length_eq_zero.mp h1
    have hs : sums = [] := List.length_eq_zero.mp h2
    subst hf
    subst hs
    exact ⟨fun j hj => absurd hj (by simp), rfl⟩
  · constructor
    · intro j hj
      rw [canon_factors_eq_of_build key canonFn sums factors symms eldag fidxes
        hbuild hcase, okD_ok, factorLoop_fst]
      have hzlen : j < (factors.zip fidxes).length := by
        rw [List.length_zip]
        omega
      rw [List.getD_eq_getElem _ _ (by simpa using hzlen)]
      simp only [List.getElem_map, List.getElem_zip]
      rw [processOneFactor_eq]
      have hg : factors.get ⟨j, hj⟩ = factors[j] := rfl
      have hfd : fidxes.getD j 0 = fidxes[j] := List.getD_eq_getElem fidxes 0 (by omega)
      rw [hg, hfd]
      by_cases h : factors[j].1.indices.length < 2
      · rw [if_pos h, if_pos h]
      · rw [if_neg h, if_neg h]
        cases (eldag.canon canonFn).2.getD fidxes[j] none with
        | none => rfl
        | some p => rfl
    · rw [canon_factors_eq_of_build key canonFn sums factors symms eldag fidxes
        hbuild hcase, okD_ok, factorLoop_snd, one_mul]
      congr 1
      apply List.map_congr_left
      intro pr hpr
      rw [processOneFactor_eq]
      by_cases h : pr.1.1.indices.length < 2
      · rw [if_pos h, if_pos h]
      · rw [if_neg h, if_neg h]
        cases (eldag.canon canonFn).2.getD pr.2 none with
        | none => rfl
        | some p => rfl

/-- The demonstration inputs of the assembly claim: one two-index factor
over two summations, canonicalized with a transposition carrying the NEG
flag. -/
def c4Sums : List (Sym × Nat) := [(Sym.var 0, 0), (Sym.var 1, 1)]

/-- The two-index factor T[i, j] with colour 5. -/
def c4Factors : List (Factor × Nat) :=
  [(⟨9, [SExpr.sym (Sym.var 0), SExpr.sym (Sym.var 1)]⟩, 5)]

/-- A canonicalizer output transposing the two indices of the factor node
with the NEG action bit set. -/
def c4Fn : List Nat → List Nat → List (Option Group) → List Nat →
    List Nat × List (Option Perm) :=
  fun _ _ _ _ => (List.range 5, [none, none, none, none, some ⟨[1, 0], 1⟩])

/-- The Eldag built for the assembly demonstration. -/
def c4Eldag : Eldag :=
  (okD (build_eldag sympy_key c4Sums c4Factors []) (Eldag.empty, [])).1

/-- The factor node indices of the assembly demonstration. -/
def c4Fidxes : List Nat :=
  (okD (build_eldag sympy_key c4Sums c4Factors []) (Eldag.empty, [])).2

/-- Witness: the assembly rule read off at the concrete two-index factor
and its NEG-flagged transposition. -/
theorem canon_factors_assembly_witness :
    (okD (canon_factors sympy_key c4Fn c4Sums c4Factors []) ([], [], 1)).2.1.getD 0
      (FVal.ind 0 [])
      = (if (c4Factors.get ⟨0, by decide⟩).1.indices.length < 2
          then (c4Factors.get ⟨0, by decide⟩).1.val
        else match (c4Eldag.canon c4Fn).2.getD (c4Fidxes.getD 0 0) none with
          | none => (c4Factors.get ⟨0, by decide⟩).1.val
          | some p =>
              if p.acc &&& CONJ ≠ 0 then
                FVal.conj (FVal.ind (c4Factors.get ⟨0, by decide⟩).1.base
                  ((List.range (c4Factors.get ⟨0, by decide⟩).1.indices.length).map
                    (fun i => (c4Factors.get ⟨0, by decide⟩).1.indices.getD
                      (p.images.getD i 0) (SExpr.sym (Sym.var 0)))))
              else FVal.ind (c4Factors.get ⟨0, by decide⟩).1.base
                ((List.range (c4Factors.get ⟨0, by decide⟩).1.indices.length).map
                  (fun i => (c4Factors.get ⟨0, by decide⟩).1.indices.getD
                    (p.images.getD i 0) (SExpr.sym (Sym.var 0))))) ∧
    (okD (canon_factors sympy_key c4Fn c4Sums c4Factors []) ([], [], 1)).2.2
      = ((c4Factors.zip c4Fidxes).map (fun pr =>
          if pr.1.1.indices.length < 2 then (1 : Int)
          else match (c4Eldag.canon c4Fn).2.getD pr.2 none with
            | none => 1
            | some p => if p.acc &&& NEG ≠ 0 then (-1 : Int) else 1)).prod :=
  ⟨(canon_factors_assembly sympy_key c4Fn c4Sums c4Factors [] c4Eldag c4Fidxes
      (by rfl)).1 0 (by decide),
    (canon_factors_assembly sympy_key c4Fn c4Sums c4Factors [] c4Eldag c4Fidxes
      (by rfl)).2⟩

/-- C2 (amended): the canonical factor list is returned in the original
input order of the factors: entry j of the returned list is the rewrite of
input factor j under the permutation of its own node; the canonical node
order controls only the summation order, not the factor order. -/
theorem canon_factors_order (key : SExpr → Nat)
    (canonFn : List Nat → List Nat → List (Option Group) → List Nat →
      List Nat × List (Option Perm))
    (sums : List (Sym × Nat)) (factors : List (Factor × Nat)) (symms : SymmTable)
    (eldag : Eldag) (fidxes : List Nat)
    (hbuild : build_eldag key sums factors symms = .ok (eldag, fidxes)) :
    (okD (canon_factors key canonFn sums factors symms) ([], [], 1)).2.1
      = (factors.zip fidxes).map (fun pr =>
          (processOneFactor ((eldag.canon canonFn).2.getD pr.2 none) pr.1.1).1) := by
  by_cases hcase : factors.length = 0 ∧ sums.length = 0
  · obtain ⟨h1, h2⟩ := hcase
    have hf : factors = [] := List.length_eq_zero.mp h1
    have hs : sums = [] := List.length_eq_zero.mp h2
    subst hf
    subst hs
    rfl
  · rw [canon_factors_eq_of_build key canonFn sums factors symms eldag fidxes
      hbuild hcase, okD_ok, factorLoop_fst]

/-- Two zero-index factors with distinct bases and colours. -/
def c2Factors : List (Factor × Nat) := [(⟨0, []⟩, 0), (⟨1, []⟩, 1)]

/-- A canonicalizer output that reverses the two factor nodes. -/
def c2Fn : List Nat → List Nat → List (Option Group) → List Nat →
    List Nat × List (Option Perm) :=
  fun _ _ _ _ => ([1, 0], [none, none])

/-- The Eldag built for the two factors. -/
def c2Eldag : Eldag :=
  (okD (build_eldag sympy_key [] c2Factors []) (Eldag.empty, [])).1

/-- The factor node indices of the two factors. -/
def c2Fidxes : List Nat :=
  (okD (build_eldag sympy_key [] c2Factors []) (Eldag.empty, [])).2

/-- Witness: the input-order result evaluated at the two concrete factors
under the reversing canonicalizer output. -/
theorem canon_factors_order_witness :
    (okD (canon_factors sympy_key c2Fn [] c2Factors []) ([], [], 1)).2.1
      = (c2Factors.zip c2Fidxes).map (fun pr =>
          (processOneFactor ((c2Eldag.canon c2Fn).2.getD pr.2 none) pr.1.1).1) :=
  canon_factors_order sympy_key c2Fn [] c2Factors [] c2Eldag c2Fidxes (by rfl)

/-- Counterexample to C2 as stated: with the canonical node order reversing
the two factor nodes, canon_factors returns the factors in their original
input order, while filtering the canonical node order for FACTOR-tagged
nodes would give the reversed order; the two orders differ. -/
theorem canon_factors_order_counterexample :
    canon_factors sympy_key c2Fn [] c2Factors []
      = .ok ([], [FVal.ind 0 [], FVal.ind 1 []], 1) ∧
    List.Perm (c2Eldag.canon c2Fn).1 (List.range c2Eldag.colours.length) ∧
    specFactorOrder c2Eldag (c2Eldag.canon c2Fn).1 c2Fidxes
        [FVal.ind 0 [], FVal.ind 1 []]
      = [FVal.ind 1 [], FVal.ind 0 []] ∧
    ([FVal.ind 0 [], FVal.ind 1 []] : List FVal) ≠ [FVal.ind 1 [], FVal.ind 0 []] :=
  ⟨rfl, by decide, rfl, by decide⟩

end Drudge
